import Mathlib

/-!
Verification of the automata/grammar core of the repository
(`src/automata.js`): deterministic finite automata, regular grammars,
word recognition, DFA↔RG conversion and the line-oriented file parser.

JavaScript strings are modelled as lists of characters (`Str`), JS `Set`
as an insertion-ordered duplicate-free list, JS `Map` as an ordered
association list whose `set` updates in place, and thrown JS exceptions
as `Except String`.
-/

abbrev Str := List Char

/-- Conversion from a Lean string literal to the character-list model. -/
def S (s : String) : Str := s.data

/-- JS whitespace as relevant here (`trim`): space, tab, newline, return. -/
def isSpaceCh (c : Char) : Bool :=
  c = ' ' || c = '\t' || c = '\n' || c = '\r'

/-- Model of `String.prototype.trim`. -/
def trim (s : Str) : Str :=
  ((s.dropWhile isSpaceCh).reverse.dropWhile isSpaceCh).reverse

/-- Model of `String.prototype.split` with a one-character separator. -/
def splitCh (sep : Char) : Str → List Str
  | [] => [[]]
  | c :: rest =>
    if c = sep then [] :: splitCh sep rest
    else
      match splitCh sep rest with
      | [] => [[c]]
      | r :: rs => (c :: r) :: rs

/-- Model of `String.prototype.split` with the two-character separator
`->` (first occurrence, left to right, non-overlapping). -/
def splitArrow : Str → List Str
  | [] => [[]]
  | [c] => [[c]]
  | c1 :: c2 :: rest =>
    if c1 = '-' ∧ c2 = '>' then [] :: splitArrow rest
    else
      match splitArrow (c2 :: rest) with
      | [] => [[c1]]
      | r :: rs => (c1 :: r) :: rs

/-- Model of `Array.prototype.join` with a one-character separator. -/
def intercalateCh (sep : Char) : List Str → Str
  | [] => []
  | [x] => x
  | x :: y :: rest => x ++ sep :: intercalateCh sep (y :: rest)

/-- JS `Set.prototype.add`: keeps insertion order, ignores re-adds. -/
def sadd (l : List Str) (x : Str) : List Str :=
  if x ∈ l then l else l ++ [x]

/-- JS `Map.prototype.get` (ordered association list). -/
def mget {β : Type} : List (Str × β) → Str → Option β
  | [], _ => none
  | (k', v) :: rest, k => if k' = k then some v else mget rest k

/-- JS `Map.prototype.has`. -/
def hasKey {β : Type} (m : List (Str × β)) (k : Str) : Bool :=
  (mget m k).isSome

/-- JS `Map.prototype.set`: updates an existing key in place, otherwise
appends at the end. -/
def mset {β : Type} : List (Str × β) → Str → β → List (Str × β)
  | [], k, v => [(k, v)]
  | (k', v') :: rest, k, v =>
    if k' = k then (k, v) :: rest else (k', v') :: mset rest k v

/-- In-place mutation of the value stored under an existing key
(models mutating the array/map object obtained from `Map.get`). -/
def mupd {β : Type} : List (Str × β) → Str → (β → β) → List (Str × β)
  | [], _, _ => []
  | (k', v) :: rest, k, f =>
    if k' = k then (k', f v) :: rest else (k', v) :: mupd rest k f

/-- Render a modelled JS string inside an error message. -/
def Sh (s : Str) : String := String.mk s

/-- Model of JS `parseInt` digit parsing (decimal). -/
def digitsVal (ds : List Char) : Nat :=
  ds.foldl (fun n c => n * 10 + (c.toNat - '0'.toNat)) 0

/-- Hexadecimal digit test for `parseInt`'s `0x` prefix. -/
def isHexDigitCh (c : Char) : Bool :=
  c.isDigit || ('a' ≤ c && c ≤ 'f') || ('A' ≤ c && c ≤ 'F')

/-- Hexadecimal digit value. -/
def hexDigitVal (c : Char) : Nat :=
  if c.isDigit then c.toNat - '0'.toNat
  else if 'a' ≤ c && c ≤ 'f' then c.toNat - 'a'.toNat + 10
  else c.toNat - 'A'.toNat + 10

/-- Magnitude part of JS `parseInt` (radix unspecified): `0x`/`0X`
prefix selects hexadecimal, otherwise the longest decimal-digit prefix;
no digits means `NaN` (`none`). -/
def jsParseIntCore (s : Str) : Option Nat :=
  match s with
  | '0' :: 'x' :: rest =>
    let ds := rest.takeWhile isHexDigitCh
    if ds = [] then none else some (ds.foldl (fun n c => n * 16 + hexDigitVal c) 0)
  | '0' :: 'X' :: rest =>
    let ds := rest.takeWhile isHexDigitCh
    if ds = [] then none else some (ds.foldl (fun n c => n * 16 + hexDigitVal c) 0)
  | _ =>
    let ds := s.takeWhile Char.isDigit
    if ds = [] then none else some (digitsVal ds)

/-- Model of JS `parseInt(s)`: trim, optional sign, then magnitude;
`none` models `NaN`. -/
def jsParseInt (s : Str) : Option Int :=
  let t := trim s
  match t with
  | '-' :: rest => (jsParseIntCore rest).map (fun n => -(n : Int))
  | '+' :: rest => (jsParseIntCore rest).map (fun n => (n : Int))
  | _ => (jsParseIntCore t).map (fun n => (n : Int))

/-- One step of an execution trace (`executionPath` entry). -/
structure Step where
  state : Str
  symbol : Option Str
  step : Nat
deriving Repr, DecidableEq

/-- The `FiniteAutomaton` class: states, alphabet, initial/final states,
transition table `Map<string, Map<string, string>>`, plus the mutable
execution fields `currentState` and `executionPath`. -/
structure FiniteAutomaton where
  name : Str
  states : List Str
  alphabet : List Str
  initialState : Option Str
  finalStates : List Str
  transitions : List (Str × List (Str × Str))
  currentState : Option Str
  executionPath : List Step
deriving Repr, DecidableEq

/-- `new FiniteAutomaton(name)`. -/
def mkAutomaton (name : Str) : FiniteAutomaton :=
  { name := name, states := [], alphabet := [], initialState := none,
    finalStates := [], transitions := [], currentState := none,
    executionPath := [] }

/-- `setStates`: clear, then add each trimmed name. -/
def FiniteAutomaton.setStates (a : FiniteAutomaton) (states : List Str) :
    FiniteAutomaton :=
  { a with states := states.foldl (fun acc s => sadd acc (trim s)) [] }

/-- `setAlphabet`: clear, then add each trimmed symbol. -/
def FiniteAutomaton.setAlphabet (a : FiniteAutomaton) (symbols : List Str) :
    FiniteAutomaton :=
  { a with alphabet := symbols.foldl (fun acc s => sadd acc (trim s)) [] }

/-- `setInitialState`: rejects a name outside the current state set. -/
def FiniteAutomaton.setInitialState (a : FiniteAutomaton) (state : Str) :
    Except String FiniteAutomaton :=
  let t := trim state
  if t ∈ a.states then .ok { a with initialState := some t }
  else .error ("Estado inicial '" ++ Sh t ++ "' no existe en el conjunto de estados")

/-- Error message thrown by `setFinalStates` for an unknown state. -/
def msgFinalState (s : Str) : String :=
  "Estado final '" ++ Sh s ++ "' no existe en el conjunto de estados"

/-- The `forEach` loop of `setFinalStates`: adds trimmed names one by
one and stops at the first name outside `states`, leaving the partial
set in place (the JS exception escapes after the mutations so far). -/
def FiniteAutomaton.setFinalStatesGo (a : FiniteAutomaton) :
    List Str → Option String × FiniteAutomaton
  | [] => (none, a)
  | s :: rest =>
    let t := trim s
    if t ∈ a.states then
      FiniteAutomaton.setFinalStatesGo { a with finalStates := sadd a.finalStates t } rest
    else (some (msgFinalState t), a)

/-- `setFinalStates` with the post-exception object state observable:
clears `finalStates`, then runs the loop. -/
def FiniteAutomaton.setFinalStatesRun (a : FiniteAutomaton) (names : List Str) :
    Option String × FiniteAutomaton :=
  FiniteAutomaton.setFinalStatesGo { a with finalStates := [] } names

/-- `setFinalStates` as an exception-raising call. -/
def FiniteAutomaton.setFinalStates (a : FiniteAutomaton) (names : List Str) :
    Except String FiniteAutomaton :=
  match FiniteAutomaton.setFinalStatesRun a names with
  | (some e, _) => .error e
  | (none, a') => .ok a'

/-- `addTransition`: validates endpoints and symbol, creates the inner
map on demand, overwrites an existing `(from, symbol)` entry. The
returned `Bool` records whether the `console.warn` overwrite anomaly
fired. -/
def FiniteAutomaton.addTransition (a : FiniteAutomaton)
    (fromState symbol toState : Str) :
    Except String (FiniteAutomaton × Bool) :=
  let f := trim fromState
  let s := trim symbol
  let t := trim toState
  if f ∉ a.states then .error ("Estado origen '" ++ Sh f ++ "' no existe")
  else if t ∉ a.states then .error ("Estado destino '" ++ Sh t ++ "' no existe")
  else if s ∉ a.alphabet then .error ("Símbolo '" ++ Sh s ++ "' no está en el alfabeto")
  else
    let trans := if hasKey a.transitions f then a.transitions
                 else mset a.transitions f []
    let inner := (mget trans f).getD []
    let warned := (mget inner s).isSome
    .ok ({ a with transitions := mset trans f (mset inner s t) }, warned)

/-- The `forEach` loop of `setTransitions`. -/
def FiniteAutomaton.setTransitionsGo (a : FiniteAutomaton) :
    List Str → Except String FiniteAutomaton
  | [] => .ok a
  | tr :: rest =>
    match splitCh ',' (trim tr) with
    | [f, s, t] =>
      match FiniteAutomaton.addTransition a f s t with
      | .error e => .error e
      | .ok (a', _) => FiniteAutomaton.setTransitionsGo a' rest
    | _ =>
      .error ("Formato de transición inválido: '" ++ Sh tr ++
        "'. Debe ser 'estado,símbolo,estado'")

/-- `setTransitions`: split on `;`, each piece a 3-field triple. -/
def FiniteAutomaton.setTransitions (a : FiniteAutomaton) (str : Str) :
    Except String FiniteAutomaton :=
  FiniteAutomaton.setTransitionsGo a (splitCh ';' str)

/-- JS truthiness of `currentState`: non-null and non-empty. -/
def jsTruthy (o : Option Str) : Bool :=
  match o with
  | some s => !s.isEmpty
  | none => false

/-- `reset`: current state becomes the initial state; the trace is
re-initialised with a step-0 entry only when the state is truthy. -/
def FiniteAutomaton.reset (a : FiniteAutomaton) : FiniteAutomaton :=
  { a with currentState := a.initialState,
           executionPath :=
             if jsTruthy a.initialState then
               [{ state := a.initialState.getD [], symbol := none, step := 0 }]
             else [] }

/-- Error message of an uninitialised `processSymbol` call. -/
def msgNotInit : String :=
  "El autómata no ha sido inicializado. Llama a reset() primero."

/-- `processSymbol`: throws when `currentState` is falsy; returns
`false` on an unknown symbol or a missing transition; otherwise
advances the state and appends a trace step. -/
def FiniteAutomaton.processSymbol (a : FiniteAutomaton) (symbol : Str) :
    Except String (Bool × FiniteAutomaton) :=
  match a.currentState with
  | none => .error msgNotInit
  | some cs =>
    if cs = [] then .error msgNotInit
    else if symbol ∉ a.alphabet then .ok (false, a)
    else
      match mget a.transitions cs with
      | none => .ok (false, a)
      | some st =>
        match mget st symbol with
        | none => .ok (false, a)
        | some next =>
          .ok (true, { a with
            currentState := some next,
            executionPath := a.executionPath ++
              [{ state := next, symbol := some symbol,
                 step := a.executionPath.length }] })

/-- Result object of `recognizeWord`. -/
structure RecognitionResult where
  word : Str
  accepted : Bool
  path : List Step
  error : Option String
  finalState : Option Str
deriving Repr, DecidableEq

/-- Outcome of the symbol loop inside `recognizeWord`. -/
inductive RecOutcome where
  | success (a : FiniteAutomaton)
  | noTransition (sym : Char) (a : FiniteAutomaton)
  | thrown (msg : String) (a : FiniteAutomaton)
deriving Repr, DecidableEq

/-- The `for` loop of `recognizeWord`: each character is fed to
`processSymbol`; the loop stops at the first non-consumed symbol or
thrown exception. -/
def FiniteAutomaton.recWordGo (a : FiniteAutomaton) :
    List Char → RecOutcome
  | [] => .success a
  | c :: rest =>
    match FiniteAutomaton.processSymbol a [c] with
    | .error e => .thrown e a
    | .ok (false, a') => .noTransition c a'
    | .ok (true, a') => FiniteAutomaton.recWordGo a' rest

/-- `recognizeWord`: resets, runs the loop, and builds the result
object exactly as the source does in each of the three exit paths.
Returns the result together with the automaton (whose `currentState`
and `executionPath` were mutated). -/
def FiniteAutomaton.recognizeWord (a : FiniteAutomaton) (word : Str) :
    RecognitionResult × FiniteAutomaton :=
  let a0 := FiniteAutomaton.reset a
  match FiniteAutomaton.recWordGo a0 word with
  | .success a' =>
    ({ word := word,
       accepted := (a'.currentState.map (fun q => decide (q ∈ a'.finalStates))).getD false,
       path := a'.executionPath,
       error := none,
       finalState := a'.currentState }, a')
  | .noTransition c a' =>
    ({ word := word,
       accepted := false,
       path := a'.executionPath,
       error := some ("No hay transición definida para el símbolo '" ++
         Sh [c] ++ "' desde el estado '" ++ Sh (a'.currentState.getD []) ++ "'"),
       finalState := none }, a')
  | .thrown e a' =>
    ({ word := word,
       accepted := false,
       path := [],
       error := some e,
       finalState := none }, a')

/-- Validation result object. -/
structure ValidationResult where
  isValid : Bool
  errors : List String
  warnings : List String
deriving Repr, DecidableEq

/-- Number of missing `(state, symbol)` transition pairs. -/
def FiniteAutomaton.missingTransitions (a : FiniteAutomaton) : Nat :=
  a.states.foldl (fun n q =>
    a.alphabet.foldl (fun n2 s =>
      if ((mget a.transitions q).bind (fun m => mget m s)).isSome then n2
      else n2 + 1) n) 0

/-- `FiniteAutomaton.validate`. -/
def FiniteAutomaton.validate (a : FiniteAutomaton) : ValidationResult :=
  let errors :=
    (if a.states = [] then ["No se han definido estados"] else []) ++
    (if a.alphabet = [] then ["No se ha definido el alfabeto"] else []) ++
    (if !jsTruthy a.initialState then ["No se ha definido el estado inicial"] else [])
  let warnings :=
    (if a.finalStates = [] then ["No se han definido estados finales"] else []) ++
    (if 0 < a.missingTransitions then
      ["Faltan " ++ toString a.missingTransitions ++
        " transiciones para que el autómata sea completo"] else [])
  { isValid := errors.isEmpty, errors := errors, warnings := warnings }

/-- The `RegularGrammar` class. -/
structure RegularGrammar where
  name : Str
  nonTerminals : List Str
  terminals : List Str
  startSymbol : Option Str
  productions : List (Str × List Str)
deriving Repr, DecidableEq

/-- `new RegularGrammar(name)`. -/
def mkGrammar (name : Str) : RegularGrammar :=
  { name := name, nonTerminals := [], terminals := [], startSymbol := none,
    productions := [] }

/-- `setNonTerminals`: clear, then add each trimmed symbol. -/
def RegularGrammar.setNonTerminals (g : RegularGrammar) (symbols : List Str) :
    RegularGrammar :=
  { g with nonTerminals := symbols.foldl (fun acc s => sadd acc (trim s)) [] }

/-- `setTerminals`: clear, then add each trimmed symbol. -/
def RegularGrammar.setTerminals (g : RegularGrammar) (symbols : List Str) :
    RegularGrammar :=
  { g with terminals := symbols.foldl (fun acc s => sadd acc (trim s)) [] }

/-- `setStartSymbol`: rejects a symbol outside the nonterminals. -/
def RegularGrammar.setStartSymbol (g : RegularGrammar) (symbol : Str) :
    Except String RegularGrammar :=
  let t := trim symbol
  if t ∈ g.nonTerminals then .ok { g with startSymbol := some t }
  else .error ("Símbolo inicial '" ++ Sh t ++ "' no existe en los no terminales")

/-- `addProduction`: requires a known left-hand nonterminal, then pushes
the (trimmed) right-hand side onto that nonterminal's array. -/
def RegularGrammar.addProduction (g : RegularGrammar) (leftSide rightSide : Str) :
    Except String RegularGrammar :=
  let left := trim leftSide
  let right := trim rightSide
  if left ∉ g.nonTerminals then
    .error ("Símbolo '" ++ Sh left ++ "' no está en los no terminales")
  else
    let m := if hasKey g.productions left then g.productions
             else mset g.productions left []
    .ok { g with productions := mupd m left (fun l => l ++ [right]) }

/-- The `forEach` loop of `setProductions`. -/
def RegularGrammar.setProductionsGo (g : RegularGrammar) :
    List Str → Except String RegularGrammar
  | [] => .ok g
  | prod :: rest =>
    match splitArrow (trim prod) with
    | [leftSide, rightSide] =>
      match RegularGrammar.addProduction g leftSide rightSide with
      | .error e => .error e
      | .ok g' => RegularGrammar.setProductionsGo g' rest
    | _ =>
      .error ("Formato de producción inválido: '" ++ Sh prod ++
        "'. Debe ser 'A->aB' o 'A->a'")

/-- `setProductions`: split on `;`, each piece split on `->` into
exactly two sides. -/
def RegularGrammar.setProductions (g : RegularGrammar) (str : Str) :
    Except String RegularGrammar :=
  RegularGrammar.setProductionsGo g (splitCh ';' str)

/-- Per-production error list of `RegularGrammar.validate`'s
right-linearity loop body. -/
def RegularGrammar.prodRHSErrors (g : RegularGrammar) (nonTerminal production : Str) :
    List String :=
  if production = ['ε'] ∨ production = [] then []
  else
    match production with
    | [c] =>
      if [c] ∈ g.terminals then []
      else ["Terminal '" ++ Sh [c] ++ "' no está definido"]
    | [c1, c2] =>
      if [c1] ∈ g.terminals ∧ [c2] ∈ g.nonTerminals then []
      else ["Producción '" ++ Sh nonTerminal ++ " -> " ++ Sh production ++
        "' tiene formato inválido"]
    | [] => []
    | _ =>
      ["Producción '" ++ Sh nonTerminal ++ " -> " ++ Sh production ++
        "' no es regular"]

/-- `RegularGrammar.validate`. -/
def RegularGrammar.validate (g : RegularGrammar) : ValidationResult :=
  let errors :=
    (if g.nonTerminals = [] then ["No se han definido símbolos no terminales"] else []) ++
    (if g.terminals = [] then ["No se han definido símbolos terminales"] else []) ++
    (if !jsTruthy g.startSymbol then ["No se ha definido el símbolo inicial"] else []) ++
    (if g.productions = [] then ["No se han definido producciones"] else []) ++
    g.productions.flatMap (fun p => p.2.flatMap (RegularGrammar.prodRHSErrors g p.1))
  { isValid := errors.isEmpty, errors := errors, warnings := [] }

/-- Modelled JS `TypeError` raised by calling `.trim()` on `null`
(happens when a conversion reads an unset initial/start symbol). -/
def typeErrNullTrim : String :=
  "TypeError: Cannot read properties of null (reading 'trim')"

/-- Body of the production loop of `toFiniteAutomaton`: an ε or empty
production marks the nonterminal final; `A -> a` adds a transition to
`qf`; `A -> aB` adds a transition to `B`; anything else is skipped. -/
def RegularGrammar.toFAStep (g : RegularGrammar)
    (acc : FiniteAutomaton × List Str) (nonTerminal production : Str) :
    Except String (FiniteAutomaton × List Str) :=
  if production = ['ε'] ∨ production = [] then
    .ok (acc.1, acc.2 ++ [nonTerminal])
  else
    match production with
    | [c] =>
      if [c] ∈ g.terminals then
        match FiniteAutomaton.addTransition acc.1 nonTerminal [c] (S "qf") with
        | .error e => .error e
        | .ok (a', _) => .ok (a', acc.2)
      else .ok acc
    | [c1, c2] =>
      if [c1] ∈ g.terminals ∧ [c2] ∈ g.nonTerminals then
        match FiniteAutomaton.addTransition acc.1 nonTerminal [c1] [c2] with
        | .error e => .error e
        | .ok (a', _) => .ok (a', acc.2)
      else .ok acc
    | _ => .ok acc

/-- Inner `forEach` over one nonterminal's production list. -/
def RegularGrammar.toFAInner (g : RegularGrammar) (nonTerminal : Str)
    (acc : FiniteAutomaton × List Str) :
    List Str → Except String (FiniteAutomaton × List Str)
  | [] => .ok acc
  | p :: rest =>
    match RegularGrammar.toFAStep g acc nonTerminal p with
    | .error e => .error e
    | .ok acc' => RegularGrammar.toFAInner g nonTerminal acc' rest

/-- Outer `forEach` over the productions map. -/
def RegularGrammar.toFAOuter (g : RegularGrammar)
    (acc : FiniteAutomaton × List Str) :
    List (Str × List Str) → Except String (FiniteAutomaton × List Str)
  | [] => .ok acc
  | (nt, prods) :: rest =>
    match RegularGrammar.toFAInner g nt acc prods with
    | .error e => .error e
    | .ok acc' => RegularGrammar.toFAOuter g acc' rest

/-- `RegularGrammar.toFiniteAutomaton`: states = nonterminals plus the
synthetic `qf`; alphabet = terminals; initial = start symbol (a JS
`TypeError` when unset); transitions and extra final states from the
productions; finally `setFinalStates`. -/
def RegularGrammar.toFiniteAutomaton (g : RegularGrammar) :
    Except String FiniteAutomaton :=
  let automaton := mkAutomaton (S "AFD_" ++ g.name)
  let states := g.nonTerminals ++ [S "qf"]
  let automaton := FiniteAutomaton.setStates automaton states
  let automaton := FiniteAutomaton.setAlphabet automaton g.terminals
  match g.startSymbol with
  | none => .error typeErrNullTrim
  | some ss =>
    match FiniteAutomaton.setInitialState automaton ss with
    | .error e => .error e
    | .ok automaton =>
      match RegularGrammar.toFAOuter g (automaton, [S "qf"]) g.productions with
      | .error e => .error e
      | .ok (automaton, finalStates) =>
        FiniteAutomaton.setFinalStates automaton finalStates

/-- The production strings pushed by `toRegularGrammar`: for every
transition `(q, a) -> p`, the string `q->ap`, and additionally `q->a`
when `p` is final (in that order, following the table's iteration
order). -/
def FiniteAutomaton.prodStrings (a : FiniteAutomaton) : List Str :=
  a.transitions.flatMap (fun qm =>
    qm.2.flatMap (fun sp =>
      (qm.1 ++ S "->" ++ sp.1 ++ sp.2) ::
      (if sp.2 ∈ a.finalStates then [qm.1 ++ S "->" ++ sp.1] else [])))

/-- `FiniteAutomaton.prototype.toRegularGrammar`: nonterminals from the
states, terminals from the alphabet, start symbol from the initial
state (a JS `TypeError` when unset), then the collected production
strings (plus `S->ε` when the initial state is final) are joined with
`;` and fed to `setProductions`. -/
def FiniteAutomaton.toRegularGrammar (a : FiniteAutomaton) :
    Except String RegularGrammar :=
  let grammar := mkGrammar (S "GR_" ++ a.name)
  let grammar := RegularGrammar.setNonTerminals grammar a.states
  let grammar := RegularGrammar.setTerminals grammar a.alphabet
  match a.initialState with
  | none => .error typeErrNullTrim
  | some init =>
    match RegularGrammar.setStartSymbol grammar init with
    | .error e => .error e
    | .ok grammar =>
      let productions := FiniteAutomaton.prodStrings a ++
        (if init ∈ a.finalStates then [init ++ S "->" ++ ['ε']] else [])
      if 0 < productions.length then
        RegularGrammar.setProductions grammar (intercalateCh ';' productions)
      else .ok grammar

/-- The `AutomataParser` class: two name-keyed collections. -/
structure AutomataParser where
  automata : List (Str × FiniteAutomaton)
  grammars : List (Str × RegularGrammar)
deriving Repr, DecidableEq

/-- `new AutomataParser()`. -/
def emptyParser : AutomataParser := { automata := [], grammars := [] }

/-- String form of the parsed code used in the unknown-code message
(JS prints `NaN` for a failed `parseInt`). -/
def idToString (id : Option Int) : String :=
  match id with
  | none => "NaN"
  | some n => toString n

/-- `AutomataParser.parseLine`: splits the line on `:` into exactly
three fields, parses the code, creates the automaton for the name if
absent (this happens before the code is dispatched), then dispatches on
the code; codes 6–9 lazily create the grammar for the name. -/
def AutomataParser.parseLine (p : AutomataParser) (line : Str) :
    Except String AutomataParser :=
  match splitCh ':' line with
  | [idInfo, automatonName, information] =>
    let id := jsParseInt (trim idInfo)
    let name := trim automatonName
    let info := trim information
    let automata1 := if hasKey p.automata name then p.automata
                     else mset p.automata name (mkAutomaton name)
    let automaton := (mget automata1 name).getD (mkAutomaton name)
    if id = some 1 then
      let a' := FiniteAutomaton.setStates automaton ((splitCh ',' info).map trim)
      .ok { p with automata := mset automata1 name a' }
    else if id = some 2 then
      let a' := FiniteAutomaton.setAlphabet automaton ((splitCh ',' info).map trim)
      .ok { p with automata := mset automata1 name a' }
    else if id = some 3 then
      match FiniteAutomaton.setInitialState automaton info with
      | .error e => .error e
      | .ok a' => .ok { p with automata := mset automata1 name a' }
    else if id = some 4 then
      match FiniteAutomaton.setFinalStates automaton ((splitCh ',' info).map trim) with
      | .error e => .error e
      | .ok a' => .ok { p with automata := mset automata1 name a' }
    else if id = some 5 then
      match FiniteAutomaton.setTransitions automaton info with
      | .error e => .error e
      | .ok a' => .ok { p with automata := mset automata1 name a' }
    else if id = some 6 then
      let grammars1 := if hasKey p.grammars name then p.grammars
                       else mset p.grammars name (mkGrammar name)
      let grammar := (mget grammars1 name).getD (mkGrammar name)
      let g' := RegularGrammar.setNonTerminals grammar ((splitCh ',' info).map trim)
      .ok { p with automata := automata1, grammars := mset grammars1 name g' }
    else if id = some 7 then
      let grammars1 := if hasKey p.grammars name then p.grammars
                       else mset p.grammars name (mkGrammar name)
      let grammar := (mget grammars1 name).getD (mkGrammar name)
      let g' := RegularGrammar.setTerminals grammar ((splitCh ',' info).map trim)
      .ok { p with automata := automata1, grammars := mset grammars1 name g' }
    else if id = some 8 then
      let grammars1 := if hasKey p.grammars name then p.grammars
                       else mset p.grammars name (mkGrammar name)
      let grammar := (mget grammars1 name).getD (mkGrammar name)
      match RegularGrammar.setStartSymbol grammar info with
      | .error e => .error e
      | .ok g' => .ok { p with automata := automata1, grammars := mset grammars1 name g' }
    else if id = some 9 then
      let grammars1 := if hasKey p.grammars name then p.grammars
                       else mset p.grammars name (mkGrammar name)
      let grammar := (mget grammars1 name).getD (mkGrammar name)
      match RegularGrammar.setProductions grammar info with
      | .error e => .error e
      | .ok g' => .ok { p with automata := automata1, grammars := mset grammars1 name g' }
    else
      .error ("ID de información desconocido: " ++ idToString id)
  | _ =>
    .error ("Formato de línea inválido: '" ++ Sh line ++
      "'. Debe ser 'IdInfo:NombreAutomata:Información'")

/-- The indexed `forEach` of `parseFile`: each (already filtered) line
is trimmed and parsed; an error is re-thrown tagged with the 1-based
position in the filtered list. -/
def AutomataParser.parseFileAux (p : AutomataParser) (idx : Nat) :
    List Str → Except String AutomataParser
  | [] => .ok p
  | l :: rest =>
    match AutomataParser.parseLine p (trim l) with
    | .error e => .error ("Error en línea " ++ toString (idx + 1) ++ ": " ++ e)
    | .ok p' => AutomataParser.parseFileAux p' (idx + 1) rest

/-- `AutomataParser.parseFile`: split on newlines, drop lines that are
empty after trimming, then run the indexed loop. -/
def AutomataParser.parseFile (p : AutomataParser) (content : Str) :
    Except String AutomataParser :=
  AutomataParser.parseFileAux p 0
    ((splitCh '\n' content).filter (fun l => trim l != []))

/-- Specification-side manual transition-table walk: from state `q`,
consume each character of the word, requiring the one-character symbol
to be in the alphabet and a transition to be defined in the table;
returns the state reached, or `none` when some symbol is not
consumable. -/
def deltaStar (alphabet : List Str) (trans : List (Str × List (Str × Str)))
    (q : Str) : List Char → Option Str
  | [] => some q
  | c :: rest =>
    if [c] ∈ alphabet then
      match mget trans q with
      | none => none
      | some m =>
        match mget m [c] with
        | none => none
        | some q2 => deltaStar alphabet trans q2 rest
    else none

/-- Example: the one-state complete DFA with a self loop on `a`, whose
single state `S` is initial and final (accepts every word over `a`). -/
def exA : FiniteAutomaton :=
  { name := S "A", states := [S "S"], alphabet := [S "a"],
    initialState := some (S "S"), finalStates := [S "S"],
    transitions := [(S "S", [(S "a", S "S")])],
    currentState := none, executionPath := [] }

/-- Example: an automaton whose initial state is the empty-string name
(constructible through the parser, e.g. via the line `1:E:,q`), with a
transition from it on `a` to the final state `q`. -/
def exE : FiniteAutomaton :=
  { name := S "E", states := [[], S "q"], alphabet := [S "a"],
    initialState := some [], finalStates := [S "q"],
    transitions := [([], [(S "a", S "q")])],
    currentState := none, executionPath := [] }

/-- Joint lookup in the two-level transition table:
`transitions.get(q)` followed by `.get(s)`. -/
def lookup2 (t : List (Str × List (Str × Str))) (q s : Str) : Option Str :=
  (mget t q).bind (fun m => mget m s)

/-- No duplicate keys in an association list (the representation
invariant of a JS `Map`). -/
def nodupKeysM {β : Type} (m : List (Str × β)) : Prop :=
  (m.map Prod.fst).Nodup

/-- Representation invariant of the two-level transition table. -/
def nodupTable (t : List (Str × List (Str × Str))) : Prop :=
  nodupKeysM t ∧ ∀ p ∈ t, nodupKeysM p.2

/-- All targets retrievable from the table for a `(state, symbol)`
pair, counting every stored entry for that pair. -/
def targetsOf (t : List (Str × List (Str × Str))) (q s : Str) : List Str :=
  (t.filter (fun p => p.1 = q)).flatMap
    (fun p => (p.2.filter (fun st => st.1 = s)).map Prod.snd)

/-- A sequence of `addTransition` calls, stopping at the first
exception (the caller's loop does not catch). -/
def runAddTransitions (a : FiniteAutomaton) :
    List (Str × Str × Str) → Except String FiniteAutomaton
  | [] => .ok a
  | (f, s, t) :: rest =>
    match FiniteAutomaton.addTransition a f s t with
    | .error e => .error e
    | .ok (a', _) => runAddTransitions a' rest

/-- The transition-table update performed by a successful
`addTransition` call (ensure the inner map exists, then set). -/
def pushT (tr : List (Str × List (Str × Str))) (f s t : Str) :
    List (Str × List (Str × Str)) :=
  mset (if hasKey tr f then tr else mset tr f []) f
    (mset ((mget (if hasKey tr f then tr else mset tr f []) f).getD []) s t)

/-- Specification-side classification of a production right-hand side,
following the claim's wording: the ε marker or the empty string is
valid; one code point must be a known terminal; two code points must be
a known terminal followed by a known nonterminal; nothing longer is
valid. -/
def specValidRHS (g : RegularGrammar) (rhs : Str) : Prop :=
  rhs = ['ε'] ∨ rhs = [] ∨
  (rhs.length = 1 ∧ rhs ∈ g.terminals) ∨
  (∃ c1 c2, rhs = [c1, c2] ∧ [c1] ∈ g.terminals ∧ [c2] ∈ g.nonTerminals)

/-- Example grammar exercising every right-hand-side shape of the
validation classification: `A->abc`, `A->ε`, `A->a`, `A->aB`. -/
def exG : RegularGrammar :=
  { name := S "G", nonTerminals := [S "A", S "B"], terminals := [S "a"],
    startSymbol := some (S "A"),
    productions := [(S "A", [S "abc", S "ε", S "a", S "aB"])] }

/-- Characters that keep a name inert in the production-string
round-trip of `toRegularGrammar`: not the `;` join separator, not `-`
(so the `->` marker cannot be formed), and not whitespace (so `trim`
is the identity). -/
def CleanCh (c : Char) : Prop := c ≠ ';' ∧ c ≠ '-' ∧ isSpaceCh c = false

instance (c : Char) : Decidable (CleanCh c) := by
  unfold CleanCh; infer_instance

/-- Every character of the string is inert. -/
def CleanS (s : Str) : Prop := ∀ c ∈ s, CleanCh c

instance (s : Str) : Decidable (CleanS s) := by
  unfold CleanS; infer_instance

/-- A transition `(q, s) -> p2` stored in the automaton's two-level
table. -/
def TransMem (a : FiniteAutomaton) (q s p2 : Str) : Prop :=
  ∃ m, (q, m) ∈ a.transitions ∧ (s, p2) ∈ m

/-- Membership of a right-hand side in the production list stored
under a key of a productions map. -/
def pairMem (m : List (Str × List Str)) (q rhs : Str) : Prop :=
  ∃ l, mget m q = some l ∧ rhs ∈ l

/-- Membership of `q -> rhs` among a grammar's stored productions. -/
def prodMem (g : RegularGrammar) (q rhs : Str) : Prop :=
  pairMem g.productions q rhs

/-- The productions-map update performed by a successful
`addProduction`: ensure the key's array exists, then push. -/
def pushVal (m : List (Str × List Str)) (k v : Str) : List (Str × List Str) :=
  mupd (if hasKey m k then m else mset m k []) k (fun xs => xs ++ [v])

/-- The (left, right) production pairs that `toRegularGrammar` emits,
in emission order. -/
def prodPairs (a : FiniteAutomaton) (init : Str) : List (Str × Str) :=
  a.transitions.flatMap (fun qm =>
    qm.2.flatMap (fun sp =>
      (qm.1, sp.1 ++ sp.2) ::
      (if sp.2 ∈ a.finalStates then [(qm.1, sp.1)] else []))) ++
  (if init ∈ a.finalStates then [(init, ['ε'])] else [])

/-- A sequence of `addProduction` calls, stopping at the first
exception. -/
def addAll (g : RegularGrammar) : List (Str × Str) → Except String RegularGrammar
  | [] => .ok g
  | (l, r) :: rest =>
    match RegularGrammar.addProduction g l r with
    | .error e => .error e
    | .ok g' => addAll g' rest

/-- The defining fields of an automaton (everything except the mutable
execution fields `currentState` / `executionPath`). -/
def persistEq (a b : FiniteAutomaton) : Prop :=
  a.name = b.name ∧ a.states = b.states ∧ a.alphabet = b.alphabet ∧
  a.initialState = b.initialState ∧ a.finalStates = b.finalStates ∧
  a.transitions = b.transitions

/-- The automaton carried by a loop outcome (proof helper). -/
def outAuto : RecOutcome → FiniteAutomaton
  | .success a => a
  | .noTransition _ a => a
  | .thrown _ a => a

instance {ε α : Type} [DecidableEq ε] [DecidableEq α] : DecidableEq (Except ε α) := fun x y =>
  match x, y with
  | .ok a, .ok b => if h : a = b then .isTrue (by rw [h]) else .isFalse (by simp [h])
  | .error a, .error b => if h : a = b then .isTrue (by rw [h]) else .isFalse (by simp [h])
  | .ok _, .error _ => .isFalse (by simp)
  | .error _, .ok _ => .isFalse (by simp)

/-! ### Generic lemmas about the string and collection models -/

theorem dropWhile_eq_self_of_none (p : Char → Bool) (s : Str)
    (h : ∀ c ∈ s, p c = false) : s.dropWhile p = s := by
  cases s with
  | nil => rfl
  | cons c rest =>
    simp [List.dropWhile, h c (by simp)]

theorem trim_eq_self (s : Str) (h : ∀ c ∈ s, isSpaceCh c = false) :
    trim s = s := by
  unfold trim
  rw [dropWhile_eq_self_of_none _ _ h,
      dropWhile_eq_self_of_none _ _ (fun c hc => h c (List.mem_reverse.mp hc)),
      List.reverse_reverse]

theorem splitCh_of_not_mem (sep : Char) (s : Str) (h : sep ∉ s) :
    splitCh sep s = [s] := by
  induction s with
  | nil => rfl
  | cons c rest ih =>
    have hc : ¬ c = sep := by
      intro hcs; exact h (by simp [hcs])
    have hr : sep ∉ rest := fun hm => h (by simp [hm])
    simp [splitCh, hc, ih hr]

theorem splitCh_append_sep (sep : Char) (x rest : Str) (h : sep ∉ x) :
    splitCh sep (x ++ sep :: rest) = x :: splitCh sep rest := by
  induction x with
  | nil => simp [splitCh]
  | cons c x' ih =>
    have hc : ¬ c = sep := by
      intro hcs; exact h (by simp [hcs])
    have hx : sep ∉ x' := fun hm => h (by simp [hm])
    simp only [List.cons_append, splitCh, hc, if_false, List.append_eq]
    rw [ih hx]

theorem splitCh_intercalate (sep : Char) (l : List Str) (hne : l ≠ [])
    (h : ∀ x ∈ l, sep ∉ x) :
    splitCh sep (intercalateCh sep l) = l := by
  induction l with
  | nil => exact absurd rfl hne
  | cons x rest ih =>
    cases rest with
    | nil =>
      simpa [intercalateCh] using splitCh_of_not_mem sep x (h x (by simp))
    | cons y rest' =>
      have hx : sep ∉ x := h x (by simp)
      have hrest : ∀ z ∈ y :: rest', sep ∉ z := fun z hz => h z (by simp [hz])
      simp only [intercalateCh, splitCh_append_sep sep x _ hx]
      rw [ih (by simp) hrest]

theorem splitArrow_of_not_mem (s : Str) (h : '-' ∉ s) :
    splitArrow s = [s] := by
  induction s using splitArrow.induct with
  | case1 => rfl
  | case2 c => rfl
  | case3 c1 c2 rest hcond ih =>
    exact absurd hcond.1 (by intro hc; exact h (by simp [hc]))
  | case4 c1 c2 rest hcond hnil ih =>
    have hr : '-' ∉ c2 :: rest := fun hm => h (by simp [hm])
    rw [ih hr] at hnil
    exact absurd hnil (by simp)
  | case5 c1 c2 rest hcond r rs hcons ih =>
    have hr : '-' ∉ c2 :: rest := fun hm => h (by simp [hm])
    rw [ih hr] at hcons
    have hrr : c2 :: rest = r ∧ ([] : List Str) = rs := by
      simpa using hcons
    obtain ⟨hrr1, hrr2⟩ := hrr
    subst hrr1 hrr2
    simp only [splitArrow, if_neg hcond]
    rw [ih hr]

theorem splitArrow_append (q r : Str) (h : '-' ∉ q) :
    splitArrow (q ++ '-' :: '>' :: r) = q :: splitArrow r := by
  induction q with
  | nil => simp [splitArrow]
  | cons c q' ih =>
    have hc : ¬ c = '-' := by
      intro hcs; exact h (by simp [hcs])
    have hq : '-' ∉ q' := fun hm => h (by simp [hm])
    have hih := ih hq
    cases hql : q' ++ '-' :: '>' :: r with
    | nil => simp at hql
    | cons d L =>
      have hcond : ¬ (c = '-' ∧ d = '>') := fun hcd => hc hcd.1
      rw [List.cons_append, hql]
      rw [hql] at hih
      simp only [splitArrow, if_neg hcond]
      rw [hih]

theorem mget_mset_self {β : Type} (m : List (Str × β)) (k : Str) (v : β) :
    mget (mset m k v) k = some v := by
  induction m with
  | nil => simp [mset, mget]
  | cons p rest ih =>
    by_cases h : p.1 = k
    · simp [mset, mget, h]
    · simp [mset, mget, h, ih]

theorem mget_mset_ne {β : Type} (m : List (Str × β)) (k k' : Str) (v : β)
    (h : k' ≠ k) : mget (mset m k v) k' = mget m k' := by
  induction m with
  | nil =>
    have hne : ¬ k = k' := fun hh => h hh.symm
    simp [mset, mget, hne]
  | cons p rest ih =>
    by_cases hp : p.1 = k
    · subst hp
      have hne : ¬ p.1 = k' := fun hh => h hh.symm
      simp [mset, mget, hne]
    · simp only [mset, if_neg hp, mget]
      by_cases hp' : p.1 = k'
      · simp [hp']
      · simp [hp', ih]

theorem mem_mset {β : Type} (m : List (Str × β)) (k : Str) (v : β)
    (p : Str × β) (h : p ∈ mset m k v) : p = (k, v) ∨ p ∈ m := by
  induction m with
  | nil => simpa [mset] using h
  | cons q rest ih =>
    by_cases hq : q.1 = k
    · simp only [mset, if_pos hq, List.mem_cons] at h
      rcases h with h | h
      · exact .inl h
      · exact .inr (by simp [h])
    · simp only [mset, if_neg hq, List.mem_cons] at h
      rcases h with h | h
      · exact .inr (by simp [h])
      · rcases ih h with h' | h'
        · exact .inl h'
        · exact .inr (by simp [h'])

theorem keys_mset {β : Type} (m : List (Str × β)) (k : Str) (v : β) :
    (mset m k v).map Prod.fst =
      if (mget m k).isSome then m.map Prod.fst else m.map Prod.fst ++ [k] := by
  induction m with
  | nil => simp [mset, mget]
  | cons p rest ih =>
    by_cases hp : p.1 = k
    · simp [mset, mget, hp]
    · simp only [mset, if_neg hp, mget, List.map_cons, ih]
      by_cases hs : (mget rest k).isSome
      · simp [hs, hp]
      · simp [hs, hp]

theorem mget_isSome_of_mem {β : Type} (m : List (Str × β)) (p : Str × β)
    (hp : p ∈ m) : (mget m p.1).isSome := by
  induction m with
  | nil => simp at hp
  | cons q rest ih =>
    rcases List.mem_cons.mp hp with hq | hq
    · simp [mget, hq.symm]
    · by_cases hq1 : q.1 = p.1
      · simp [mget, hq1]
      · simpa [mget, hq1] using ih hq

theorem nodup_keys_mset {β : Type} (m : List (Str × β)) (k : Str) (v : β)
    (h : (m.map Prod.fst).Nodup) : ((mset m k v).map Prod.fst).Nodup := by
  rw [keys_mset]
  by_cases hs : (mget m k).isSome
  · simp [hs, h]
  · have hk : k ∉ m.map Prod.fst := by
      intro hmem
      rcases List.mem_map.mp hmem with ⟨p, hp, hfst⟩
      have hsome := mget_isSome_of_mem m p hp
      rw [hfst] at hsome
      exact hs hsome
    simp [hs, List.nodup_append, h, hk]

theorem mget_some_mem {β : Type} (m : List (Str × β)) (k : Str) (v : β)
    (h : mget m k = some v) : (k, v) ∈ m := by
  induction m with
  | nil => simp [mget] at h
  | cons p rest ih =>
    by_cases hp : p.1 = k
    · simp only [mget, if_pos hp] at h
      have hpv : p = (k, v) := by
        obtain ⟨p1, p2⟩ := p
        simp only [Option.some.injEq] at h
        simp only at hp
        simp [hp, h]
      rw [← hpv]
      exact List.mem_cons_self p rest
    · simp only [mget, if_neg hp] at h
      exact List.mem_cons_of_mem p (ih h)

theorem mget_mupd_self {β : Type} (m : List (Str × β)) (k : Str) (f : β → β) :
    mget (mupd m k f) k = (mget m k).map f := by
  induction m with
  | nil => simp [mupd, mget]
  | cons p rest ih =>
    by_cases hp : p.1 = k
    · simp [mupd, mget, hp]
    · simp [mupd, mget, hp, ih]

theorem mget_mupd_ne {β : Type} (m : List (Str × β)) (k k' : Str) (f : β → β)
    (h : k' ≠ k) : mget (mupd m k f) k' = mget m k' := by
  induction m with
  | nil => simp [mupd, mget]
  | cons p rest ih =>
    by_cases hp : p.1 = k
    · subst hp
      have hne : ¬ p.1 = k' := fun hh => h hh.symm
      simp [mupd, mget, hne]
    · simp only [mupd, if_neg hp, mget]
      by_cases hp' : p.1 = k'
      · simp [hp']
      · simp [hp', ih]

theorem mem_sadd (l : List Str) (x y : Str) :
    y ∈ sadd l x ↔ y = x ∨ y ∈ l := by
  unfold sadd
  by_cases h : x ∈ l
  · simp only [if_pos h]
    constructor
    · exact .inr
    · rintro (rfl | hy)
      · exact h
      · exact hy
  · simp only [if_neg h, List.mem_append, List.mem_singleton]
    tauto

theorem mem_foldl_sadd (l : List Str) (init : List Str) (x : Str) :
    x ∈ l.foldl (fun acc s => sadd acc (trim s)) init ↔
      x ∈ init ∨ ∃ s ∈ l, trim s = x := by
  induction l generalizing init with
  | nil => simp
  | cons y rest ih =>
    simp only [List.foldl_cons, ih, mem_sadd]
    constructor
    · rintro ((rfl | hx) | ⟨s, hs, rfl⟩)
      · exact .inr ⟨y, by simp⟩
      · exact .inl hx
      · exact .inr ⟨s, by simp [hs]⟩
    · rintro (hx | ⟨s, hs, rfl⟩)
      · exact .inl (.inr hx)
      · rcases List.mem_cons.mp hs with rfl | hs'
        · exact .inl (.inl rfl)
        · exact .inr ⟨s, hs', rfl⟩

/-! ### Persistence of the definitional fields across recognition -/

theorem persistEq_refl (a : FiniteAutomaton) : persistEq a a :=
  ⟨rfl, rfl, rfl, rfl, rfl, rfl⟩

theorem persistEq_trans {a b c : FiniteAutomaton}
    (h1 : persistEq a b) (h2 : persistEq b c) : persistEq a c := by
  obtain ⟨e1, e2, e3, e4, e5, e6⟩ := h1
  obtain ⟨f1, f2, f3, f4, f5, f6⟩ := h2
  exact ⟨e1.trans f1, e2.trans f2, e3.trans f3, e4.trans f4, e5.trans f5, e6.trans f6⟩

theorem processSymbol_persist (a : FiniteAutomaton) (s : Str)
    (r : Bool × FiniteAutomaton)
    (h : FiniteAutomaton.processSymbol a s = .ok r) : persistEq a r.2 := by
  unfold FiniteAutomaton.processSymbol at h
  repeat' split at h
  all_goals simp_all [persistEq]
  all_goals (subst h; simp)

theorem recWordGo_persist (w : List Char) (a : FiniteAutomaton) :
    persistEq a (outAuto (FiniteAutomaton.recWordGo a w)) := by
  induction w generalizing a with
  | nil => exact persistEq_refl a
  | cons c rest ih =>
    simp only [FiniteAutomaton.recWordGo]
    cases hps : FiniteAutomaton.processSymbol a [c] with
    | error e => exact persistEq_refl a
    | ok r =>
      obtain ⟨b, a1⟩ := r
      have hper := processSymbol_persist a [c] (b, a1) hps
      cases b with
      | false => exact hper
      | true => exact persistEq_trans hper (ih a1)

theorem reset_congr (a b : FiniteAutomaton) (h : persistEq a b) :
    FiniteAutomaton.reset a = FiniteAutomaton.reset b := by
  obtain ⟨e1, e2, e3, e4, e5, e6⟩ := h
  cases a; cases b
  simp only at e1 e2 e3 e4 e5 e6
  subst e1 e2 e3 e4 e5 e6
  simp [FiniteAutomaton.reset]

theorem recognizeWord_congr (a b : FiniteAutomaton) (w : Str)
    (h : persistEq a b) :
    FiniteAutomaton.recognizeWord a w = FiniteAutomaton.recognizeWord b w := by
  unfold FiniteAutomaton.recognizeWord
  rw [reset_congr a b h]

theorem reset_persist (a : FiniteAutomaton) :
    persistEq a (FiniteAutomaton.reset a) := by
  exact ⟨rfl, rfl, rfl, rfl, rfl, rfl⟩

theorem recognizeWord_snd_eq_outAuto (a : FiniteAutomaton) (w : Str) :
    (FiniteAutomaton.recognizeWord a w).2 =
      outAuto (FiniteAutomaton.recWordGo (FiniteAutomaton.reset a) w) := by
  cases h : FiniteAutomaton.recWordGo (FiniteAutomaton.reset a) w <;>
    simp [FiniteAutomaton.recognizeWord, h, outAuto]

theorem recognizeWord_persist (a : FiniteAutomaton) (w : Str) :
    persistEq a (FiniteAutomaton.recognizeWord a w).2 := by
  rw [recognizeWord_snd_eq_outAuto]
  exact persistEq_trans (reset_persist a)
    (recWordGo_persist w (FiniteAutomaton.reset a))

theorem persistEq_symm {a b : FiniteAutomaton} (h : persistEq a b) :
    persistEq b a := by
  obtain ⟨e1, e2, e3, e4, e5, e6⟩ := h
  exact ⟨e1.symm, e2.symm, e3.symm, e4.symm, e5.symm, e6.symm⟩

/-- C4: `recognizeWord` is idempotent and side-effect-free on its
automaton: running the same word again from the automaton returned by a
first run yields exactly the same result object and the same automaton
(in particular the second call changes nothing observable), and the
computation is a pure function of the automaton value — no state
outside it exists or is touched in the model. -/
theorem recognizeWord_idempotent (a : FiniteAutomaton) (w : Str) :
    FiniteAutomaton.recognizeWord (FiniteAutomaton.recognizeWord a w).2 w =
      FiniteAutomaton.recognizeWord a w :=
  recognizeWord_congr _ a w (persistEq_symm (recognizeWord_persist a w))

theorem recWordGo_deltaStar (w : List Char) (a : FiniteAutomaton) (q : Str)
    (hcs : a.currentState = some q) (hne : q ≠ [])
    (htgt : ∀ p ∈ a.transitions, ∀ st ∈ p.2, st.2 ≠ []) :
    (∃ a2, FiniteAutomaton.recWordGo a w = .success a2 ∧
       a2.currentState = deltaStar a.alphabet a.transitions q w ∧
       a2.finalStates = a.finalStates) ∨
    (deltaStar a.alphabet a.transitions q w = none ∧
       ∃ c a2, FiniteAutomaton.recWordGo a w = .noTransition c a2) := by
  induction w generalizing a q with
  | nil =>
    exact .inl ⟨a, rfl, by simp [deltaStar, hcs], rfl⟩
  | cons c rest ih =>
    by_cases hal : [c] ∈ a.alphabet
    · cases hm1 : mget a.transitions q with
      | none =>
        refine .inr ⟨by simp [deltaStar, hal, hm1], c, a, ?_⟩
        simp [FiniteAutomaton.recWordGo, FiniteAutomaton.processSymbol, hcs, hne, hal, hm1]
      | some m =>
        cases hm2 : mget m [c] with
        | none =>
          refine .inr ⟨by simp [deltaStar, hal, hm1, hm2], c, a, ?_⟩
          simp [FiniteAutomaton.recWordGo, FiniteAutomaton.processSymbol, hcs, hne, hal, hm1, hm2]
        | some next =>
          have hnext : next ≠ [] := by
            have hqm : (q, m) ∈ a.transitions := mget_some_mem _ _ _ hm1
            have hcm : ([c], next) ∈ m := mget_some_mem _ _ _ hm2
            exact htgt (q, m) hqm ([c], next) hcm
          have hps : FiniteAutomaton.processSymbol a [c] = .ok (true,
              { a with currentState := some next,
                       executionPath := a.executionPath ++
                         [{ state := next, symbol := some [c],
                            step := a.executionPath.length }] }) := by
            simp [FiniteAutomaton.processSymbol, hcs, hne, hal, hm1, hm2]
          have hds : deltaStar a.alphabet a.transitions q (c :: rest) =
              deltaStar a.alphabet a.transitions next rest := by
            simp [deltaStar, hal, hm1, hm2]
          have hgo : FiniteAutomaton.recWordGo a (c :: rest) =
              FiniteAutomaton.recWordGo
                { a with currentState := some next,
                         executionPath := a.executionPath ++
                           [{ state := next, symbol := some [c],
                              step := a.executionPath.length }] } rest := by
            simp [FiniteAutomaton.recWordGo, hps]
          rw [hgo, hds]
          exact ih _ next rfl hnext htgt
    · refine .inr ⟨by simp [deltaStar, hal], c, a, ?_⟩
      simp [FiniteAutomaton.recWordGo, FiniteAutomaton.processSymbol, hcs, hne, hal]

/-- C3 counterexample: for the automaton `exE`, whose initial state is
the empty-string name, `recognizeWord "a"` is not accepted (the
JS-falsy current state makes `processSymbol` throw), even though the
manual transition-table walk consumes the symbol and ends in a final
state; so accepted-iff-walk fails as stated for arbitrary automata with
an initial state. -/
theorem recognizeWord_walk_mismatch :
    (FiniteAutomaton.recognizeWord exE (S "a")).1.accepted = false ∧
    exE.initialState = some [] ∧
    deltaStar exE.alphabet exE.transitions [] (S "a") = some (S "q") ∧
    S "q" ∈ exE.finalStates := by decide

/-- C3 (amended): for every automaton whose initial state is set and
non-empty and whose transition targets are non-empty names,
`recognizeWord w` accepts exactly when the manual transition-table walk
(each symbol in the alphabet and a transition defined from the current
state) consumes all of `w` and ends in a member of `finalStates`. -/
theorem recognizeWord_accepted_iff (a : FiniteAutomaton) (w : Str) (s0 : Str)
    (hinit : a.initialState = some s0) (hne : s0 ≠ [])
    (htgt : ∀ p ∈ a.transitions, ∀ st ∈ p.2, st.2 ≠ []) :
    (FiniteAutomaton.recognizeWord a w).1.accepted = true ↔
      ∃ q, deltaStar a.alphabet a.transitions s0 w = some q ∧
        q ∈ a.finalStates := by
  have ha0cs : (FiniteAutomaton.reset a).currentState = some s0 := by
    simp [FiniteAutomaton.reset, hinit]
  have ha0al : (FiniteAutomaton.reset a).alphabet = a.alphabet := rfl
  have ha0tr : (FiniteAutomaton.reset a).transitions = a.transitions := rfl
  have ha0fs : (FiniteAutomaton.reset a).finalStates = a.finalStates := rfl
  have hsim := recWordGo_deltaStar w (FiniteAutomaton.reset a) s0 ha0cs hne
    (by rw [ha0tr]; exact htgt)
  rw [ha0al, ha0tr, ha0fs] at hsim
  rcases hsim with ⟨a2, hgo, hcs2, hfs2⟩ | ⟨hds, c, a2, hgo⟩
  · simp only [FiniteAutomaton.recognizeWord, hgo]
    cases hval : deltaStar a.alphabet a.transitions s0 w with
    | none =>
      rw [hval] at hcs2
      simp [hcs2]
    | some qf =>
      rw [hval] at hcs2
      simp [hcs2, hfs2]
  · simp only [FiniteAutomaton.recognizeWord, hgo]
    simp [hds]

/-- Witness for the amended C3 theorem at the concrete automaton `exA`
and the word `aa`. -/
theorem recognizeWord_accepted_iff_witness :
    (FiniteAutomaton.recognizeWord exA (S "aa")).1.accepted = true ↔
      ∃ q, deltaStar exA.alphabet exA.transitions (S "S") (S "aa") = some q ∧
        q ∈ exA.finalStates :=
  recognizeWord_accepted_iff exA (S "aa") (S "S") (by decide) (by decide) (by decide)

theorem filter_keys_length_le_one {β : Type} (m : List (Str × β)) (q : Str)
    (h : (m.map Prod.fst).Nodup) :
    (m.filter (fun p => p.1 = q)).length ≤ 1 := by
  induction m with
  | nil => simp
  | cons p rest ih =>
    simp only [List.map_cons, List.nodup_cons] at h
    by_cases hp : p.1 = q
    · have hall : rest.filter (fun p2 => p2.1 = q) = [] := by
        rw [List.filter_eq_nil_iff]
        intro x hx
        simp only [decide_eq_true_eq]
        intro hxq
        exact h.1 (by
          rw [hp, ← hxq]
          exact List.mem_map.mpr ⟨x, hx, rfl⟩)
      simp [List.filter_cons, hp, hall]
    · simp only [List.filter_cons, hp]
      simpa using ih h.2

theorem targetsOf_le_one (t : List (Str × List (Str × Str))) (q s : Str)
    (h : nodupTable t) : (targetsOf t q s).length ≤ 1 := by
  obtain ⟨hout, hin⟩ := h
  unfold targetsOf
  cases hf : t.filter (fun p => p.1 = q) with
  | nil => simp
  | cons p rest =>
    have hlen := filter_keys_length_le_one t q hout
    rw [hf] at hlen
    simp only [List.length_cons] at hlen
    have hrest : rest = [] := by
      cases rest with
      | nil => rfl
      | cons x xs => simp at hlen
    subst hrest
    have hpmem : p ∈ t := List.mem_of_mem_filter (by rw [hf]; simp)
    have hinner := filter_keys_length_le_one p.2 s (hin p hpmem)
    simpa using hinner

theorem addTransition_ok_conds (a : FiniteAutomaton) (f s t : Str)
    (r : FiniteAutomaton × Bool)
    (h : FiniteAutomaton.addTransition a f s t = .ok r) :
    trim f ∈ a.states ∧ trim t ∈ a.states ∧ trim s ∈ a.alphabet := by
  unfold FiniteAutomaton.addTransition at h
  by_cases h1 : trim f ∈ a.states
  · by_cases h2 : trim t ∈ a.states
    · by_cases h3 : trim s ∈ a.alphabet
      · exact ⟨h1, h2, h3⟩
      · simp [h1, h2, h3] at h
    · simp [h1, h2] at h
  · simp [h1] at h

theorem warn_eq_lookup2 (tr : List (Str × List (Str × Str))) (f s : Str) :
    (mget ((mget (if hasKey tr f then tr else mset tr f []) f).getD []) s).isSome
      = (lookup2 tr f s).isSome := by
  by_cases hk : hasKey tr f
  · simp only [if_pos hk]
    unfold hasKey at hk
    cases hm : mget tr f with
    | none => rw [hm] at hk; simp at hk
    | some m => simp [lookup2, hm]
  · simp only [if_neg hk]
    unfold hasKey at hk
    cases hm : mget tr f with
    | none => simp [lookup2, hm, mget_mset_self, mget]
    | some m => rw [hm] at hk; simp at hk

theorem addTransition_ok_shape (a : FiniteAutomaton) (f s t : Str)
    (r : FiniteAutomaton × Bool)
    (h : FiniteAutomaton.addTransition a f s t = .ok r) :
    r.1 = { a with transitions := pushT a.transitions (trim f) (trim s) (trim t) } ∧
    r.2 = (lookup2 a.transitions (trim f) (trim s)).isSome := by
  obtain ⟨h1, h2, h3⟩ := addTransition_ok_conds a f s t r h
  unfold FiniteAutomaton.addTransition at h
  simp only [h1, h2, h3, not_true_eq_false, if_false, Except.ok.injEq] at h
  rw [← h]
  exact ⟨rfl, warn_eq_lookup2 a.transitions (trim f) (trim s)⟩

theorem nodupTable_pushT (tr : List (Str × List (Str × Str))) (f s t : Str)
    (h : nodupTable tr) : nodupTable (pushT tr f s t) := by
  obtain ⟨hout, hin⟩ := h
  have hout1 : nodupKeysM (if hasKey tr f then tr else mset tr f []) := by
    by_cases hk : hasKey tr f
    · simpa [hk] using hout
    · simp only [if_neg hk]
      exact nodup_keys_mset tr f [] hout
  have hin1 : ∀ p ∈ (if hasKey tr f then tr else mset tr f []), nodupKeysM p.2 := by
    intro p hp
    by_cases hk : hasKey tr f
    · rw [if_pos hk] at hp
      exact hin p hp
    · rw [if_neg hk] at hp
      rcases mem_mset tr f [] p hp with rfl | hp2
      · simp [nodupKeysM]
      · exact hin p hp2
  have hinner : nodupKeysM ((mget (if hasKey tr f then tr else mset tr f []) f).getD []) := by
    cases hm : mget (if hasKey tr f then tr else mset tr f []) f with
    | none => simp [nodupKeysM]
    | some m =>
      have := hin1 (f, m) (mget_some_mem _ _ _ hm)
      simpa using this
  constructor
  · exact nodup_keys_mset _ f _ hout1
  · intro p hp
    rcases mem_mset _ f _ p hp with rfl | hp2
    · exact nodup_keys_mset _ s t hinner
    · exact hin1 p hp2

theorem runAddTransitions_nodup (l : List (Str × Str × Str))
    (a a' : FiniteAutomaton) (hnd : nodupTable a.transitions)
    (h : runAddTransitions a l = .ok a') : nodupTable a'.transitions := by
  induction l generalizing a with
  | nil =>
    unfold runAddTransitions at h
    cases h
    exact hnd
  | cons x rest ih =>
    obtain ⟨f, s, t⟩ := x
    unfold runAddTransitions at h
    cases hadd : FiniteAutomaton.addTransition a f s t with
    | error e => rw [hadd] at h; simp at h
    | ok r =>
      obtain ⟨a1, b⟩ := r
      rw [hadd] at h
      simp only [] at h
      obtain ⟨hshape, _⟩ := addTransition_ok_shape a f s t (a1, b) hadd
      have hnd1 : nodupTable a1.transitions := by
        have : a1 = (a1, b).1 := rfl
        rw [this, hshape]
        exact nodupTable_pushT _ _ _ _ hnd
      exact ih a1 hnd1 h

/-- C5: after any sequence of successful `addTransition` calls starting
from an automaton whose table satisfies the `Map` representation
invariant, at most one target is retrievable for every
`(state, symbol)` pair; and a further successful `addTransition` on an
already-registered pair does not error: it overwrites the stored target
and reports the overwrite through the non-fatal warning flag, which
fires exactly when the pair was already present. -/
theorem addTransition_determinism (a : FiniteAutomaton)
    (l : List (Str × Str × Str)) (a' : FiniteAutomaton)
    (hnd : nodupTable a.transitions)
    (hrun : runAddTransitions a l = .ok a') :
    (∀ q s, (targetsOf a'.transitions q s).length ≤ 1) ∧
    (∀ f s t r, FiniteAutomaton.addTransition a' f s t = .ok r →
       lookup2 r.1.transitions (trim f) (trim s) = some (trim t) ∧
       r.2 = (lookup2 a'.transitions (trim f) (trim s)).isSome) := by
  have hnd' := runAddTransitions_nodup l a a' hnd hrun
  refine ⟨fun q s => targetsOf_le_one _ q s hnd', ?_⟩
  intro f s t r hadd
  obtain ⟨hshape, hw⟩ := addTransition_ok_shape a' f s t r hadd
  refine ⟨?_, hw⟩
  rw [hshape]
  show lookup2 (pushT a'.transitions (trim f) (trim s) (trim t)) (trim f) (trim s)
    = some (trim t)
  unfold pushT lookup2
  rw [mget_mset_self]
  simp [mget_mset_self]

/-- Witness for the C5 theorem: the loop automaton `exA` with one
re-registration of its existing transition. -/
theorem addTransition_determinism_witness :
    (∀ q s, (targetsOf exA.transitions q s).length ≤ 1) ∧
    (∀ f s t r, FiniteAutomaton.addTransition exA f s t = .ok r →
       lookup2 r.1.transitions (trim f) (trim s) = some (trim t) ∧
       r.2 = (lookup2 exA.transitions (trim f) (trim s)).isSome) :=
  addTransition_determinism exA [(S "S", S "a", S "S")] exA
    (by constructor <;> simp [nodupKeysM, exA]) (by decide)

theorem setFinalStatesGo_stops (names : List Str) (a : FiniteAutomaton)
    (i : Nat) (bad : Str)
    (h1 : names.get? i = some bad) (h2 : trim bad ∉ a.states)
    (h3 : ∀ x ∈ names.take i, trim x ∈ a.states) :
    FiniteAutomaton.setFinalStatesGo a names =
      (some (msgFinalState (trim bad)),
       { a with finalStates :=
           (names.take i).foldl (fun acc s => sadd acc (trim s)) a.finalStates }) := by
  induction names generalizing a i with
  | nil => simp at h1
  | cons n rest ih =>
    cases i with
    | zero =>
      simp only [List.get?_cons_zero, Option.some.injEq] at h1
      subst h1
      simp [FiniteAutomaton.setFinalStatesGo, h2]
    | succ j =>
      simp only [List.get?_cons_succ] at h1
      have hn : trim n ∈ a.states := h3 n (by simp)
      have h3' : ∀ x ∈ rest.take j, trim x ∈
          ({ a with finalStates := sadd a.finalStates (trim n) } : FiniteAutomaton).states := by
        intro x hx
        exact h3 x (by simp [hx])
      have := ih { a with finalStates := sadd a.finalStates (trim n) } j h1 h2 h3'
      simp only [FiniteAutomaton.setFinalStatesGo, hn, if_pos]
      rw [this]
      simp

/-- C10: `setFinalStates` is not atomic on error: it first clears the
final-state set and validates while inserting, so when the `(i+1)`-st
supplied name is the first one outside `states`, the call raises the
unknown-final-state error and leaves `finalStates` holding exactly the
trimmed names that preceded the offending one — the previous
final-state set is lost. -/
theorem setFinalStates_partial_on_error (a : FiniteAutomaton)
    (names : List Str) (i : Nat) (bad : Str)
    (h1 : names.get? i = some bad) (h2 : trim bad ∉ a.states)
    (h3 : ∀ x ∈ names.take i, trim x ∈ a.states) :
    (FiniteAutomaton.setFinalStatesRun a names).1 =
      some (msgFinalState (trim bad)) ∧
    ∀ x, x ∈ (FiniteAutomaton.setFinalStatesRun a names).2.finalStates ↔
      ∃ y ∈ names.take i, trim y = x := by
  unfold FiniteAutomaton.setFinalStatesRun
  rw [setFinalStatesGo_stops names { a with finalStates := [] } i bad h1 h2 h3]
  refine ⟨rfl, fun x => ?_⟩
  simp only []
  rw [mem_foldl_sadd]
  simp

/-- Witness for the C10 theorem: `exA` with final-state list
`S, zz` — the unknown name `zz` aborts the call after `S` was added. -/
theorem setFinalStates_partial_on_error_witness :
    (FiniteAutomaton.setFinalStatesRun exA [S "S", S "zz"]).1 =
      some (msgFinalState (trim (S "zz"))) ∧
    ∀ x, x ∈ (FiniteAutomaton.setFinalStatesRun exA [S "S", S "zz"]).2.finalStates ↔
      ∃ y ∈ [S "S", S "zz"].take 1, trim y = x :=
  setFinalStates_partial_on_error exA [S "S", S "zz"] 1 (S "zz")
    (by decide) (by decide) (by decide)

/-- C9: `RegularGrammar.validate` classifies each stored right-hand
side exactly as specified: the ε marker or empty string is valid, one
code point is valid only as a known terminal, two code points only as a
known terminal followed by a known nonterminal, and any longer
right-hand side produces exactly the not-regular error naming the
offending production; every per-production error surfaces in the
`validate()` error list. -/
theorem grammar_validate_classification (g : RegularGrammar) (nt rhs : Str)
    (hstored : ∃ l, mget g.productions nt = some l ∧ rhs ∈ l) :
    (RegularGrammar.prodRHSErrors g nt rhs = [] ↔ specValidRHS g rhs) ∧
    (2 < rhs.length →
      RegularGrammar.prodRHSErrors g nt rhs =
        ["Producción '" ++ Sh nt ++ " -> " ++ Sh rhs ++ "' no es regular"]) ∧
    (∀ e ∈ RegularGrammar.prodRHSErrors g nt rhs,
      e ∈ (RegularGrammar.validate g).errors) := by
  refine ⟨?_, ?_, ?_⟩
  · by_cases heps : rhs = ['ε'] ∨ rhs = []
    · simp only [RegularGrammar.prodRHSErrors, if_pos heps, specValidRHS, true_iff]
      tauto
    · rcases rhs with _ | ⟨c1, _ | ⟨c2, _ | ⟨c3, rest⟩⟩⟩
      · exact absurd (.inr rfl) heps
      · have hc : ¬ ([c1] : Str) = ['ε'] := fun hh => heps (.inl hh)
        unfold RegularGrammar.prodRHSErrors
        rw [if_neg heps]
        constructor
        · intro h
          by_cases hterm : [c1] ∈ g.terminals
          · exact .inr (.inr (.inl ⟨rfl, hterm⟩))
          · simp [hterm] at h
        · rintro (h | h | ⟨_, h⟩ | ⟨d1, d2, h, _⟩)
          · exact absurd h hc
          · exact absurd h (by simp)
          · simp [h]
          · simp at h
      · unfold RegularGrammar.prodRHSErrors
        rw [if_neg heps]
        constructor
        · intro h
          by_cases hok : [c1] ∈ g.terminals ∧ [c2] ∈ g.nonTerminals
          · exact .inr (.inr (.inr ⟨c1, c2, rfl, hok.1, hok.2⟩))
          · simp [hok] at h
        · rintro (h | h | ⟨hlen, _⟩ | ⟨d1, d2, hd, h1, h2⟩)
          · exact absurd h (by simp)
          · exact absurd h (by simp)
          · simp at hlen
          · obtain ⟨rfl, rfl⟩ : c1 = d1 ∧ c2 = d2 := by
              injection hd with hx hy
              injection hy with hz
              exact ⟨hx, hz⟩
            simp [h1, h2]
      · unfold RegularGrammar.prodRHSErrors
        rw [if_neg heps]
        constructor
        · intro h
          simp at h
        · rintro (h | h | ⟨hlen, _⟩ | ⟨d1, d2, hd, _, _⟩)
          · exact absurd h (by simp)
          · exact absurd h (by simp)
          · simp at hlen
          · simp at hd
  · intro hlen
    have heps : ¬ (rhs = ['ε'] ∨ rhs = []) := by
      rintro (h | h) <;> (subst h; simp at hlen)
    rcases rhs with _ | ⟨c1, _ | ⟨c2, _ | ⟨c3, rest⟩⟩⟩
    · simp at hlen
    · simp at hlen
    · simp at hlen
    · unfold RegularGrammar.prodRHSErrors
      rw [if_neg heps]
  · intro e he
    obtain ⟨l, hl, hrhs⟩ := hstored
    have hmem : (nt, l) ∈ g.productions := mget_some_mem _ _ _ hl
    simp only [RegularGrammar.validate, List.mem_append]
    refine .inr (List.mem_flatMap.mpr ⟨(nt, l), hmem, ?_⟩)
    exact List.mem_flatMap.mpr ⟨rhs, hrhs, he⟩

/-- Witness for the C9 theorem: the stored production `A -> abc` of the
example grammar `exG`. -/
theorem grammar_validate_classification_witness :
    (RegularGrammar.prodRHSErrors exG (S "A") (S "abc") = [] ↔
      specValidRHS exG (S "abc")) ∧
    (2 < (S "abc").length →
      RegularGrammar.prodRHSErrors exG (S "A") (S "abc") =
        ["Producción '" ++ Sh (S "A") ++ " -> " ++ Sh (S "abc") ++ "' no es regular"]) ∧
    (∀ e ∈ RegularGrammar.prodRHSErrors exG (S "A") (S "abc"),
      e ∈ (RegularGrammar.validate exG).errors) :=
  grammar_validate_classification exG (S "A") (S "abc")
    ⟨[S "abc", S "ε", S "a", S "aB"], rfl, by decide⟩

theorem parseFileAux_error_at (ls : List Str) (p p' : AutomataParser)
    (i j : Nat) (lj : Str) (m : String)
    (h1 : AutomataParser.parseFileAux p i (ls.take j) = .ok p')
    (h2 : ls.get? j = some lj)
    (h3 : AutomataParser.parseLine p' (trim lj) = .error m) :
    AutomataParser.parseFileAux p i ls =
      .error ("Error en línea " ++ toString (i + j + 1) ++ ": " ++ m) := by
  induction ls generalizing p i j with
  | nil => simp at h2
  | cons l rest ih =>
    cases j with
    | zero =>
      simp only [List.take_zero, AutomataParser.parseFileAux, Except.ok.injEq] at h1
      simp only [List.get?_cons_zero, Option.some.injEq] at h2
      subst h1 h2
      unfold AutomataParser.parseFileAux
      rw [h3]
    | succ j' =>
      simp only [List.take_succ_cons, AutomataParser.parseFileAux] at h1
      simp only [List.get?_cons_succ] at h2
      cases hpl : AutomataParser.parseLine p (trim l) with
      | error e => rw [hpl] at h1; simp at h1
      | ok p1 =>
        rw [hpl] at h1
        simp only [] at h1
        have := ih p1 (i + 1) j' h1 h2
        unfold AutomataParser.parseFileAux
        rw [hpl]
        simp only []
        rw [this]
        have harith : i + 1 + j' + 1 = i + (j' + 1) + 1 := by omega
        rw [harith]

/-- C6 counterexample: the file whose first two physical lines are
blank and whose third line is the malformed `zz` is rejected with
"Error en línea 1" — the reported number indexes the non-blank lines,
not the offending file line (line 3). -/
theorem parseFile_blank_line_numbering :
    AutomataParser.parseFile emptyParser (S "\n\nzz") =
      .error ("Error en línea 1: Formato de línea inválido: 'zz'. Debe ser 'IdInfo:NombreAutomata:Información'") ∧
    (splitCh '\n' (S "\n\nzz")).get? 2 = some (S "zz") := by decide

/-- C6 (amended): `parseFile` silently skips blank
(whitespace-only) lines; every remaining line that does not split on
`:` into exactly three fields makes `parseLine` fail with the format
error quoting the line, and any `parseLine` error at the `j`-th
non-blank line (0-based, all earlier non-blank lines having parsed)
aborts the load with that error prefixed by `Error en línea (j+1)` —
the 1-based index among non-blank lines, not the file line number. -/
theorem parseFile_error_reporting :
    (∀ (p : AutomataParser) (l : Str), (splitCh ':' l).length ≠ 3 →
      AutomataParser.parseLine p l =
        .error ("Formato de línea inválido: '" ++ Sh l ++
          "'. Debe ser 'IdInfo:NombreAutomata:Información'")) ∧
    (∀ (p p' : AutomataParser) (content : Str) (j : Nat) (lj : Str) (m : String),
      AutomataParser.parseFileAux p 0
        (((splitCh '\n' content).filter (fun l => trim l != [])).take j) = .ok p' →
      ((splitCh '\n' content).filter (fun l => trim l != [])).get? j = some lj →
      AutomataParser.parseLine p' (trim lj) = .error m →
      AutomataParser.parseFile p content =
        .error ("Error en línea " ++ toString (j + 1) ++ ": " ++ m)) := by
  constructor
  · intro p l h
    rcases hsp : splitCh ':' l with _ | ⟨a, _ | ⟨b, _ | ⟨c, _ | ⟨d, rest⟩⟩⟩⟩
    · unfold AutomataParser.parseLine
      rw [hsp]
    · unfold AutomataParser.parseLine
      rw [hsp]
    · unfold AutomataParser.parseLine
      rw [hsp]
    · exact absurd (by simp [hsp]) h
    · unfold AutomataParser.parseLine
      rw [hsp]
  · intro p p' content j lj m h1 h2 h3
    unfold AutomataParser.parseFile
    have := parseFileAux_error_at _ p p' 0 j lj m h1 h2 h3
    simpa using this

/-- Witness for the amended C6 theorem: the spec's sample file whose
second line is a malformed transition triple is rejected naming line 2. -/
theorem parseFile_error_reporting_witness :
    AutomataParser.parseFile emptyParser (S "1:X:q0,q1\n5:X:q0,a,q1,q2") =
      .error ("Error en línea " ++ toString (1 + 1) ++ ": " ++
        "Formato de transición inválido: 'q0,a,q1,q2'. Debe ser 'estado,símbolo,estado'") :=
  parseFile_error_reporting.2 emptyParser
    { automata := [(S "X", FiniteAutomaton.setStates (mkAutomaton (S "X")) [S "q0", S "q1"])],
      grammars := [] }
    (S "1:X:q0,q1\n5:X:q0,a,q1,q2") 1 (S "5:X:q0,a,q1,q2")
    "Formato de transición inválido: 'q0,a,q1,q2'. Debe ser 'estado,símbolo,estado'"
    (by decide) (by decide) (by decide)

/-- C7 counterexample: the line `1abc:M:q0` has a non-integer code
field, yet `parseLine` succeeds — JS `parseInt` truncates `1abc` to the
integer 1, so the line is silently treated as a states declaration and
no parse error is raised for this non-integer code. -/
theorem parseLine_nonint_code_ok :
    (AutomataParser.parseLine emptyParser (S "1abc:M:q0")).isOk = true ∧
    jsParseInt (trim (S "1abc")) = some 1 := by decide

/-- C7 (amended): a code field whose `parseInt` value is `NaN` (no
leading integer) causes the fatal unknown-code error printing `NaN`,
and an integer-valued code outside 1–9 causes the fatal unknown-code
error printing that integer; any such `parseLine` error aborts the
whole file load (shown for the file consisting of that line). -/
theorem parseLine_unknown_code (p : AutomataParser) (l idInfo nm info : Str)
    (hsp : splitCh ':' l = [idInfo, nm, info]) :
    (jsParseInt (trim idInfo) = none →
      AutomataParser.parseLine p l = .error "ID de información desconocido: NaN") ∧
    (∀ n : Int, jsParseInt (trim idInfo) = some n →
      n ∉ ([1, 2, 3, 4, 5, 6, 7, 8, 9] : List Int) →
      AutomataParser.parseLine p l =
        .error ("ID de información desconocido: " ++ toString n)) ∧
    (∀ e, AutomataParser.parseLine p l = .error e →
      trim l = l → l ≠ [] → '\n' ∉ l →
      AutomataParser.parseFile p l = .error ("Error en línea 1: " ++ e)) := by
  refine ⟨?_, ?_, ?_⟩
  · intro h
    unfold AutomataParser.parseLine
    rw [hsp]
    simp [h, idToString]
  · intro n h hnot
    simp only [List.mem_cons, List.not_mem_nil, or_false, not_or] at hnot
    obtain ⟨h1, h2, h3, h4, h5, h6, h7, h8, h9⟩ := hnot
    unfold AutomataParser.parseLine
    rw [hsp]
    simp [h, h1, h2, h3, h4, h5, h6, h7, h8, h9, idToString]
  · intro e he htrim hne hnl
    unfold AutomataParser.parseFile
    rw [splitCh_of_not_mem '\n' l hnl]
    have hbne : (l != ([] : Str)) = true := by simp [hne]
    have hfil : ([l].filter (fun x => trim x != [])) = [l] := by
      simp only [List.filter, htrim, hbne]
    rw [hfil]
    unfold AutomataParser.parseFileAux
    rw [htrim, he]
    rfl

/-- Witness for the amended C7 theorem at the line `77:M:x`. -/
theorem parseLine_unknown_code_witness :
    (jsParseInt (trim (S "77")) = none →
      AutomataParser.parseLine emptyParser (S "77:M:x") =
        .error "ID de información desconocido: NaN") ∧
    (∀ n : Int, jsParseInt (trim (S "77")) = some n →
      n ∉ ([1, 2, 3, 4, 5, 6, 7, 8, 9] : List Int) →
      AutomataParser.parseLine emptyParser (S "77:M:x") =
        .error ("ID de información desconocido: " ++ toString n)) ∧
    (∀ e, AutomataParser.parseLine emptyParser (S "77:M:x") = .error e →
      trim (S "77:M:x") = S "77:M:x" → S "77:M:x" ≠ [] → '\n' ∉ S "77:M:x" →
      AutomataParser.parseFile emptyParser (S "77:M:x") =
        .error ("Error en línea 1: " ++ e)) :=
  parseLine_unknown_code emptyParser (S "77:M:x") (S "77") (S "M") (S "x") (by decide)

theorem hasKey_mset_self {β : Type} (m : List (Str × β)) (k : Str) (v : β) :
    hasKey (mset m k v) k = true := by
  simp [hasKey, mget_mset_self]

theorem hasKey_ensure {β : Type} (m : List (Str × β)) (k : Str) (v : β) :
    hasKey (if hasKey m k then m else mset m k v) k = true := by
  by_cases h : hasKey m k
  · simp [h]
  · rw [if_neg h]
    exact hasKey_mset_self m k v

/-- C8 counterexample: parsing the single grammar line `6:G:A,B` from
an empty parser leaves an automaton entry under the name `G` — the
parser creates a `FiniteAutomaton` for the line's name before
dispatching on the code, for grammar codes too. -/
theorem parseLine_code6_creates_automaton :
    (AutomataParser.parseLine emptyParser (S "6:G:A,B")).map
      (fun p => hasKey p.automata (S "G")) = .ok true := by decide

/-- C8 (amended): on every successfully parsed line, the parser has an
automaton entry under the line's (trimmed) name regardless of the code
— the `FiniteAutomaton` is created on first reference before the code
dispatch, so a file containing only grammar codes 6–9 still populates
the automata collection; a `RegularGrammar` is created only by codes
6–9, and lines with other codes leave the grammar collection
untouched. -/
theorem parseLine_lazy_creation (p p' : AutomataParser) (l idInfo nm info : Str)
    (hsp : splitCh ':' l = [idInfo, nm, info])
    (hok : AutomataParser.parseLine p l = .ok p') :
    hasKey p'.automata (trim nm) = true ∧
    (jsParseInt (trim idInfo) ∉
        ([some 6, some 7, some 8, some 9] : List (Option Int)) →
      p'.grammars = p.grammars) ∧
    (jsParseInt (trim idInfo) ∈
        ([some 6, some 7, some 8, some 9] : List (Option Int)) →
      hasKey p'.grammars (trim nm) = true) := by
  unfold AutomataParser.parseLine at hok
  rw [hsp] at hok
  simp only [] at hok
  by_cases h1 : jsParseInt (trim idInfo) = some 1
  · rw [if_pos h1] at hok
    simp only [Except.ok.injEq] at hok
    subst hok
    refine ⟨hasKey_mset_self _ _ _, fun _ => rfl, fun hmem => ?_⟩
    rw [h1] at hmem; simp at hmem
  · rw [if_neg h1] at hok
    by_cases h2 : jsParseInt (trim idInfo) = some 2
    · rw [if_pos h2] at hok
      simp only [Except.ok.injEq] at hok
      subst hok
      refine ⟨hasKey_mset_self _ _ _, fun _ => rfl, fun hmem => ?_⟩
      rw [h2] at hmem; simp at hmem
    · rw [if_neg h2] at hok
      by_cases h3 : jsParseInt (trim idInfo) = some 3
      · rw [if_pos h3] at hok
        split at hok
        · exact absurd hok (by simp)
        · simp only [Except.ok.injEq] at hok
          subst hok
          refine ⟨hasKey_mset_self _ _ _, fun _ => rfl, fun hmem => ?_⟩
          rw [h3] at hmem; simp at hmem
      · rw [if_neg h3] at hok
        by_cases h4 : jsParseInt (trim idInfo) = some 4
        · rw [if_pos h4] at hok
          split at hok
          · exact absurd hok (by simp)
          · simp only [Except.ok.injEq] at hok
            subst hok
            refine ⟨hasKey_mset_self _ _ _, fun _ => rfl, fun hmem => ?_⟩
            rw [h4] at hmem; simp at hmem
        · rw [if_neg h4] at hok
          by_cases h5 : jsParseInt (trim idInfo) = some 5
          · rw [if_pos h5] at hok
            split at hok
            · exact absurd hok (by simp)
            · simp only [Except.ok.injEq] at hok
              subst hok
              refine ⟨hasKey_mset_self _ _ _, fun _ => rfl, fun hmem => ?_⟩
              rw [h5] at hmem; simp at hmem
          · rw [if_neg h5] at hok
            by_cases h6 : jsParseInt (trim idInfo) = some 6
            · rw [if_pos h6] at hok
              simp only [Except.ok.injEq] at hok
              subst hok
              refine ⟨hasKey_ensure _ _ _, fun hnot => ?_, fun _ => hasKey_mset_self _ _ _⟩
              rw [h6] at hnot; simp at hnot
            · rw [if_neg h6] at hok
              by_cases h7 : jsParseInt (trim idInfo) = some 7
              · rw [if_pos h7] at hok
                simp only [Except.ok.injEq] at hok
                subst hok
                refine ⟨hasKey_ensure _ _ _, fun hnot => ?_, fun _ => hasKey_mset_self _ _ _⟩
                rw [h7] at hnot; simp at hnot
              · rw [if_neg h7] at hok
                by_cases h8 : jsParseInt (trim idInfo) = some 8
                · rw [if_pos h8] at hok
                  split at hok
                  · exact absurd hok (by simp)
                  · simp only [Except.ok.injEq] at hok
                    subst hok
                    refine ⟨hasKey_ensure _ _ _, fun hnot => ?_, fun _ => hasKey_mset_self _ _ _⟩
                    rw [h8] at hnot; simp at hnot
                · rw [if_neg h8] at hok
                  by_cases h9 : jsParseInt (trim idInfo) = some 9
                  · rw [if_pos h9] at hok
                    split at hok
                    · exact absurd hok (by simp)
                    · simp only [Except.ok.injEq] at hok
                      subst hok
                      refine ⟨hasKey_ensure _ _ _, fun hnot => ?_, fun _ => hasKey_mset_self _ _ _⟩
                      rw [h9] at hnot; simp at hnot
                  · rw [if_neg h9] at hok
                    exact absurd hok (by simp)

/-- Witness for the amended C8 theorem at the grammar line `6:G:A,B`. -/
theorem parseLine_lazy_creation_witness :
    hasKey (AutomataParser.mk
        [(S "G", mkAutomaton (S "G"))]
        [(S "G", RegularGrammar.setNonTerminals (mkGrammar (S "G")) [S "A", S "B"])]).automata
      (trim (S "G")) = true ∧
    (jsParseInt (trim (S "6")) ∉
        ([some 6, some 7, some 8, some 9] : List (Option Int)) →
      (AutomataParser.mk
        [(S "G", mkAutomaton (S "G"))]
        [(S "G", RegularGrammar.setNonTerminals (mkGrammar (S "G")) [S "A", S "B"])]).grammars
        = emptyParser.grammars) ∧
    (jsParseInt (trim (S "6")) ∈
        ([some 6, some 7, some 8, some 9] : List (Option Int)) →
      hasKey (AutomataParser.mk
        [(S "G", mkAutomaton (S "G"))]
        [(S "G", RegularGrammar.setNonTerminals (mkGrammar (S "G")) [S "A", S "B"])]).grammars
        (trim (S "G")) = true) :=
  parseLine_lazy_creation emptyParser
    (AutomataParser.mk
      [(S "G", mkAutomaton (S "G"))]
      [(S "G", RegularGrammar.setNonTerminals (mkGrammar (S "G")) [S "A", S "B"])])
    (S "6:G:A,B") (S "6") (S "G") (S "A,B") (by decide) (by decide)

/-! ### Lemmas for the DFA → RG conversion -/

theorem CleanS.trim_id {s : Str} (h : CleanS s) : trim s = s :=
  trim_eq_self s (fun c hc => (h c hc).2.2)

theorem CleanS.no_semi {s : Str} (h : CleanS s) : ';' ∉ s :=
  fun hm => (h ';' hm).1 rfl

theorem CleanS.no_dash {s : Str} (h : CleanS s) : '-' ∉ s :=
  fun hm => (h '-' hm).2.1 rfl

theorem CleanS.append {s t : Str} (hs : CleanS s) (ht : CleanS t) :
    CleanS (s ++ t) := by
  intro c hc
  rcases List.mem_append.mp hc with h | h
  · exact hs c h
  · exact ht c h

theorem cleanS_eps : CleanS ['ε'] := by decide

theorem prodString_trim (q rhs : Str) (hq : CleanS q) (hr : CleanS rhs) :
    trim (q ++ S "->" ++ rhs) = q ++ S "->" ++ rhs := by
  apply trim_eq_self
  intro c hc
  rcases List.mem_append.mp hc with h | h
  · rcases List.mem_append.mp h with h2 | h2
    · exact (hq c h2).2.2
    · simp only [S, List.mem_cons] at h2
      rcases h2 with rfl | h3
      · rfl
      · rcases h3 with rfl | h4
        · rfl
        · simp at h4
  · exact (hr c h).2.2

theorem prodString_split (q rhs : Str) (hq : CleanS q) (hr : CleanS rhs) :
    splitArrow (q ++ S "->" ++ rhs) = [q, rhs] := by
  have h1 : q ++ S "->" ++ rhs = q ++ '-' :: '>' :: rhs := by
    rw [List.append_assoc]
    rfl
  rw [h1, splitArrow_append q rhs hq.no_dash,
      splitArrow_of_not_mem rhs hr.no_dash]

theorem prodString_no_semi (q rhs : Str) (hq : CleanS q) (hr : CleanS rhs) :
    ';' ∉ q ++ S "->" ++ rhs := by
  intro hc
  rcases List.mem_append.mp hc with h | h
  · rcases List.mem_append.mp h with h2 | h2
    · exact hq.no_semi h2
    · exact absurd h2 (by decide)
  · exact hr.no_semi h

theorem mget_pushVal_self (m : List (Str × List Str)) (k v : Str) :
    mget (pushVal m k v) k = some ((mget m k).getD [] ++ [v]) := by
  unfold pushVal
  by_cases h : hasKey m k
  · rw [if_pos h, mget_mupd_self]
    unfold hasKey at h
    cases hm : mget m k with
    | none => rw [hm] at h; simp at h
    | some xs => simp [hm]
  · rw [if_neg h, mget_mupd_self, mget_mset_self]
    unfold hasKey at h
    cases hm : mget m k with
    | none => simp [hm]
    | some xs => rw [hm] at h; simp at h

theorem mget_pushVal_ne (m : List (Str × List Str)) (k k' v : Str)
    (h : k' ≠ k) : mget (pushVal m k v) k' = mget m k' := by
  unfold pushVal
  by_cases hk : hasKey m k
  · rw [if_pos hk, mget_mupd_ne _ _ _ _ h]
  · rw [if_neg hk, mget_mupd_ne _ _ _ _ h, mget_mset_ne _ _ _ _ h]

theorem pairMem_pushVal (m : List (Str × List Str)) (k v q rhs : Str) :
    pairMem (pushVal m k v) q rhs ↔
      (q = k ∧ rhs = v) ∨ pairMem m q rhs := by
  unfold pairMem
  by_cases hq : q = k
  · rw [hq, mget_pushVal_self]
    cases hm : mget m k with
    | none => simp [hm]
    | some old =>
      simp only [hm, Option.getD_some, Option.some.injEq]
      constructor
      · rintro ⟨l, hl, hmem⟩
        subst hl
        rcases List.mem_append.mp hmem with h | h
        · exact .inr ⟨old, rfl, h⟩
        · exact .inl ⟨by trivial, by simpa using h⟩
      · rintro (⟨_, hv⟩ | ⟨l, hl, hmem⟩)
        · exact ⟨old ++ [v], rfl, List.mem_append.mpr (.inr (by simp [hv]))⟩
        · subst hl
          exact ⟨old ++ [v], rfl, List.mem_append.mpr (.inl hmem)⟩
  · rw [mget_pushVal_ne _ _ _ _ hq]
    simp [hq]

theorem addProduction_ok (g : RegularGrammar) (l r : Str)
    (hl : trim l ∈ g.nonTerminals) :
    RegularGrammar.addProduction g l r =
      .ok { g with productions := pushVal g.productions (trim l) (trim r) } := by
  unfold RegularGrammar.addProduction pushVal
  rw [if_neg (show ¬ (trim l ∉ g.nonTerminals) from fun h => h hl)]

theorem addAll_ok (pairs : List (Str × Str)) (g : RegularGrammar)
    (hNT : ∀ pr ∈ pairs, trim pr.1 ∈ g.nonTerminals) :
    ∃ g', addAll g pairs = .ok g' ∧
      g'.nonTerminals = g.nonTerminals ∧ g'.terminals = g.terminals ∧
      g'.startSymbol = g.startSymbol ∧ g'.name = g.name ∧
      ∀ q rhs, pairMem g'.productions q rhs ↔
        (∃ pr ∈ pairs, trim pr.1 = q ∧ trim pr.2 = rhs) ∨
        pairMem g.productions q rhs := by
  induction pairs generalizing g with
  | nil =>
    refine ⟨g, rfl, rfl, rfl, rfl, rfl, fun q rhs => ?_⟩
    simp
  | cons pr rest ih =>
    obtain ⟨l0, r0⟩ := pr
    have hl0 : trim l0 ∈ g.nonTerminals := hNT (l0, r0) (by simp)
    have g1def := addProduction_ok g l0 r0 hl0
    have hNT1 : ∀ pr2 ∈ rest, trim pr2.1 ∈
        ({ g with productions := pushVal g.productions (trim l0) (trim r0) }
          : RegularGrammar).nonTerminals := by
      intro pr2 h2
      exact hNT pr2 (by simp [h2])
    obtain ⟨g', hrun, hnt, hterm, hstart, hname, hmem⟩ := ih _ hNT1
    refine ⟨g', ?_, hnt, hterm, hstart, hname, fun q rhs => ?_⟩
    · unfold addAll
      rw [g1def]
      exact hrun
    · rw [hmem q rhs]
      have hstep : pairMem
          ({ g with productions := pushVal g.productions (trim l0) (trim r0) }
            : RegularGrammar).productions q rhs ↔
          (q = trim l0 ∧ rhs = trim r0) ∨ pairMem g.productions q rhs :=
        pairMem_pushVal g.productions (trim l0) (trim r0) q rhs
      rw [hstep]
      constructor
      · rintro (⟨pr2, h2, e1, e2⟩ | ⟨e1, e2⟩ | h)
        · exact .inl ⟨pr2, by simp [h2], e1, e2⟩
        · exact .inl ⟨(l0, r0), by simp, e1.symm, e2.symm⟩
        · exact .inr h
      · rintro (⟨pr2, h2, e1, e2⟩ | h)
        · rcases List.mem_cons.mp h2 with rfl | h3
          · exact .inr (.inl ⟨e1.symm, e2.symm⟩)
          · exact .inl ⟨pr2, h3, e1, e2⟩
        · exact .inr (.inr h)

theorem setProductionsGo_eq_addAll (pairs : List (Str × Str)) (g : RegularGrammar)
    (hcl : ∀ pr ∈ pairs, CleanS pr.1 ∧ CleanS pr.2) :
    RegularGrammar.setProductionsGo g
        (pairs.map (fun pr => pr.1 ++ S "->" ++ pr.2)) =
      addAll g pairs := by
  induction pairs generalizing g with
  | nil => rfl
  | cons pr rest ih =>
    obtain ⟨l0, r0⟩ := pr
    obtain ⟨hc1, hc2⟩ := hcl (l0, r0) (by simp)
    simp only [List.map_cons]
    unfold RegularGrammar.setProductionsGo
    rw [prodString_trim l0 r0 hc1 hc2, prodString_split l0 r0 hc1 hc2]
    unfold addAll
    cases hadd : RegularGrammar.addProduction g l0 r0 with
    | error e => simp only [hadd]
    | ok g1 =>
      simp only [hadd]
      exact ih g1 (fun pr2 h2 => hcl pr2 (by simp [h2]))

theorem prodStrings_eq_map (a : FiniteAutomaton) (init : Str) :
    FiniteAutomaton.prodStrings a ++
      (if init ∈ a.finalStates then [init ++ S "->" ++ ['ε']] else []) =
    (prodPairs a init).map (fun pr => pr.1 ++ S "->" ++ pr.2) := by
  unfold FiniteAutomaton.prodStrings prodPairs
  rw [List.map_append]
  congr 1
  · rw [List.map_flatMap]
    congr 1
    funext qm
    rw [List.map_flatMap]
    congr 1
    funext sp
    by_cases h : sp.2 ∈ a.finalStates <;>
      simp [h, List.append_assoc]
  · by_cases h : init ∈ a.finalStates <;> simp [h]

theorem mem_prodPairs (a : FiniteAutomaton) (init q rhs : Str) :
    (q, rhs) ∈ prodPairs a init ↔
      (∃ s p2, TransMem a q s p2 ∧ rhs = s ++ p2) ∨
      (∃ s p2, TransMem a q s p2 ∧ p2 ∈ a.finalStates ∧ rhs = s) ∨
      (q = init ∧ init ∈ a.finalStates ∧ rhs = ['ε']) := by
  unfold prodPairs
  rw [List.mem_append]
  constructor
  · rintro (h | h)
    · obtain ⟨qm, hqm, h2⟩ := List.mem_flatMap.mp h
      obtain ⟨sp, hsp, h3⟩ := List.mem_flatMap.mp h2
      rcases List.mem_cons.mp h3 with h4 | h4
      · have hq : q = qm.1 := congrArg Prod.fst h4
        have hr : rhs = sp.1 ++ sp.2 := congrArg Prod.snd h4
        subst hq
        exact .inl ⟨sp.1, sp.2, ⟨qm.2, by simpa using hqm, by simpa using hsp⟩, hr⟩
      · by_cases hfin : sp.2 ∈ a.finalStates
        · rw [if_pos hfin] at h4
          have h5 := List.mem_singleton.mp h4
          have hq : q = qm.1 := congrArg Prod.fst h5
          have hr : rhs = sp.1 := congrArg Prod.snd h5
          subst hq
          exact .inr (.inl ⟨sp.1, sp.2,
            ⟨qm.2, by simpa using hqm, by simpa using hsp⟩, hfin, hr⟩)
        · rw [if_neg hfin] at h4
          simp at h4
    · by_cases hfin : init ∈ a.finalStates
      · rw [if_pos hfin] at h
        have h5 := List.mem_singleton.mp h
        have hq : q = init := congrArg Prod.fst h5
        have hr : rhs = ['ε'] := congrArg Prod.snd h5
        exact .inr (.inr ⟨hq, hfin, hr⟩)
      · rw [if_neg hfin] at h
        simp at h
  · rintro (⟨s, p2, ⟨m, hm, hsp⟩, hr⟩ | ⟨s, p2, ⟨m, hm, hsp⟩, hfin, hr⟩ |
      ⟨hq, hfin, hr⟩)
    · refine .inl (List.mem_flatMap.mpr ⟨(q, m), hm, ?_⟩)
      refine List.mem_flatMap.mpr ⟨(s, p2), hsp, ?_⟩
      exact List.mem_cons.mpr (.inl (by rw [hr]))
    · refine .inl (List.mem_flatMap.mpr ⟨(q, m), hm, ?_⟩)
      refine List.mem_flatMap.mpr ⟨(s, p2), hsp, ?_⟩
      refine List.mem_cons.mpr (.inr ?_)
      rw [if_pos hfin]
      simp [hr]
    · refine .inr ?_
      rw [hq, if_pos hfin]
      simp [hr]

theorem setNT_mem (a : FiniteAutomaton) (hcs : ∀ q ∈ a.states, CleanS q) (x : Str) :
    x ∈ (RegularGrammar.setNonTerminals (mkGrammar (S "GR_" ++ a.name))
      a.states).nonTerminals ↔ x ∈ a.states := by
  unfold RegularGrammar.setNonTerminals
  simp only []
  rw [mem_foldl_sadd]
  constructor
  · rintro (h | ⟨s, hs, rfl⟩)
    · simp at h
    · rwa [(hcs s hs).trim_id]
  · intro hx
    exact .inr ⟨x, hx, (hcs x hx).trim_id⟩

theorem setT_mem (g : RegularGrammar) (symbols : List Str)
    (hca : ∀ s ∈ symbols, CleanS s) (x : Str) :
    x ∈ (RegularGrammar.setTerminals g symbols).terminals ↔ x ∈ symbols := by
  unfold RegularGrammar.setTerminals
  simp only []
  rw [mem_foldl_sadd]
  constructor
  · rintro (h | ⟨s, hs, rfl⟩)
    · simp at h
    · rwa [(hca s hs).trim_id]
  · intro hx
    exact .inr ⟨x, hx, (hca x hx).trim_id⟩

/-- C2 counterexample: `toRegularGrammar` on an automaton without an
initial state does not produce a grammar at all — reading `null.trim()`
inside `setStartSymbol(this.initialState)` raises a `TypeError`, so
"for every automaton" fails. -/
theorem toRegularGrammar_no_initial_fails :
    FiniteAutomaton.toRegularGrammar (mkAutomaton (S "M")) =
      .error typeErrNullTrim := by decide

/-- C2 (amended): for every automaton whose initial state is set and
belongs to its states, and whose state names, alphabet symbols and
transition entries are made of inert characters (no `;`, no `-`, no
whitespace) with every transition key belonging to `states`,
`toRegularGrammar` returns a grammar whose nonterminal set is the state
set, whose terminal set is the alphabet, whose start symbol is the
initial state, and whose stored production set is exactly: `q -> ap`
for every table transition `(q, a) -> p`, additionally `q -> a` when
`p` is final, and `init -> ε` exactly when the initial state is final.
(The conversion is a pure function of the automaton in this embedding,
so the source automaton is untouched by construction.) -/
theorem toRegularGrammar_correct (a : FiniteAutomaton) (init : Str)
    (hinit : a.initialState = some init) (hin : init ∈ a.states)
    (hcs : ∀ q ∈ a.states, CleanS q) (hca : ∀ s ∈ a.alphabet, CleanS s)
    (htr : ∀ qm ∈ a.transitions, qm.1 ∈ a.states ∧
           ∀ sp ∈ qm.2, CleanS sp.1 ∧ CleanS sp.2) :
    ∃ g, FiniteAutomaton.toRegularGrammar a = .ok g ∧
      (∀ x, x ∈ g.nonTerminals ↔ x ∈ a.states) ∧
      (∀ x, x ∈ g.terminals ↔ x ∈ a.alphabet) ∧
      g.startSymbol = some init ∧
      (∀ q rhs, prodMem g q rhs ↔
        ((∃ s p2, TransMem a q s p2 ∧ rhs = s ++ p2) ∨
         (∃ s p2, TransMem a q s p2 ∧ p2 ∈ a.finalStates ∧ rhs = s) ∨
         (q = init ∧ init ∈ a.finalStates ∧ rhs = ['ε']))) := by
  have hNT := setNT_mem a hcs
  have hT := setT_mem (RegularGrammar.setNonTerminals
    (mkGrammar (S "GR_" ++ a.name)) a.states) a.alphabet hca
  have hNT2 : ∀ x, x ∈ (RegularGrammar.setTerminals
      (RegularGrammar.setNonTerminals (mkGrammar (S "GR_" ++ a.name)) a.states)
      a.alphabet).nonTerminals ↔ x ∈ a.states := hNT
  have hstartOk : RegularGrammar.setStartSymbol
      (RegularGrammar.setTerminals
        (RegularGrammar.setNonTerminals (mkGrammar (S "GR_" ++ a.name)) a.states)
        a.alphabet) init =
      .ok { RegularGrammar.setTerminals
        (RegularGrammar.setNonTerminals (mkGrammar (S "GR_" ++ a.name)) a.states)
        a.alphabet with startSymbol := some init } := by
    unfold RegularGrammar.setStartSymbol
    rw [(hcs init hin).trim_id, if_pos ((hNT2 init).mpr hin)]
  have hclean : ∀ pr ∈ prodPairs a init, CleanS pr.1 ∧ CleanS pr.2 := by
    intro pr hpr
    obtain ⟨q0, rhs0⟩ := pr
    rcases (mem_prodPairs a init q0 rhs0).mp hpr with
      ⟨s, p2, ⟨m, hm, hsp⟩, hr⟩ | ⟨s, p2, ⟨m, hm, hsp⟩, _, hr⟩ | ⟨hq, _, hr⟩
    · obtain ⟨hq0, hsps⟩ := htr (q0, m) hm
      obtain ⟨hcs1, hcs2⟩ := hsps (s, p2) hsp
      subst hr
      exact ⟨hcs q0 hq0, hcs1.append hcs2⟩
    · obtain ⟨hq0, hsps⟩ := htr (q0, m) hm
      obtain ⟨hcs1, _⟩ := hsps (s, p2) hsp
      subst hr
      exact ⟨hcs q0 hq0, hcs1⟩
    · subst hq
      subst hr
      exact ⟨hcs q0 hin, cleanS_eps⟩
  simp only [FiniteAutomaton.toRegularGrammar, hinit, hstartOk]
  by_cases hP : FiniteAutomaton.prodStrings a ++
      (if init ∈ a.finalStates then [init ++ S "->" ++ ['ε']] else []) = []
  · rw [hP]
    simp only [List.length_nil, lt_self_iff_false, if_false]
    obtain ⟨hps, hite⟩ := List.append_eq_nil.mp hP
    have hnfin : init ∉ a.finalStates := by
      intro hfin
      rw [if_pos hfin] at hite
      simp at hite
    have hnotrans : ∀ q s p2, ¬ TransMem a q s p2 := by
      rintro q s p2 ⟨m, hm, hsp⟩
      unfold FiniteAutomaton.prodStrings at hps
      rw [List.flatMap_eq_nil_iff] at hps
      have h2 := hps (q, m) hm
      rw [List.flatMap_eq_nil_iff] at h2
      have h3 := h2 (s, p2) hsp
      simp at h3
    refine ⟨_, rfl, hNT2, hT, rfl, fun q rhs => ?_⟩
    constructor
    · rintro ⟨l, hl, _⟩
      simp [mget] at hl
    · rintro (⟨s, p2, ht2, _⟩ | ⟨s, p2, ht2, _, _⟩ | ⟨_, hfin, _⟩)
      · exact absurd ht2 (hnotrans q s p2)
      · exact absurd ht2 (hnotrans q s p2)
      · exact absurd hfin hnfin
  · rw [if_pos (by
      cases hc : FiniteAutomaton.prodStrings a ++
        (if init ∈ a.finalStates then [init ++ S "->" ++ ['ε']] else []) with
      | nil => exact absurd hc hP
      | cons x xs => simp [hc])]
    unfold RegularGrammar.setProductions
    rw [prodStrings_eq_map a init]
    have hnosemi : ∀ x ∈ (prodPairs a init).map
        (fun pr => pr.1 ++ S "->" ++ pr.2), ';' ∉ x := by
      intro x hx
      obtain ⟨pr, hpr, rfl⟩ := List.mem_map.mp hx
      obtain ⟨hc1, hc2⟩ := hclean pr hpr
      exact prodString_no_semi pr.1 pr.2 hc1 hc2
    have hmapne : (prodPairs a init).map
        (fun pr => pr.1 ++ S "->" ++ pr.2) ≠ [] := by
      rw [← prodStrings_eq_map a init]
      exact hP
    rw [splitCh_intercalate ';' _ hmapne hnosemi]
    rw [setProductionsGo_eq_addAll (prodPairs a init) _ hclean]
    have hNTpairs : ∀ pr ∈ prodPairs a init, trim pr.1 ∈
        ({ RegularGrammar.setTerminals
            (RegularGrammar.setNonTerminals (mkGrammar (S "GR_" ++ a.name)) a.states)
            a.alphabet with startSymbol := some init } : RegularGrammar).nonTerminals := by
      intro pr hpr
      rw [(hclean pr hpr).1.trim_id]
      refine (hNT2 pr.1).mpr ?_
      obtain ⟨q0, rhs0⟩ := pr
      rcases (mem_prodPairs a init q0 rhs0).mp hpr with
        ⟨s, p2, ⟨m, hm, _⟩, _⟩ | ⟨s, p2, ⟨m, hm, _⟩, _, _⟩ | ⟨rfl, _, _⟩
      · exact (htr (q0, m) hm).1
      · exact (htr (q0, m) hm).1
      · exact hin
    obtain ⟨g', hrun, hnt, hterm, hstart, _, hmem⟩ :=
      addAll_ok (prodPairs a init) _ hNTpairs
    refine ⟨g', hrun, ?_, ?_, ?_, fun q rhs => ?_⟩
    · intro x
      rw [hnt]
      exact hNT2 x
    · intro x
      rw [hterm]
      exact hT x
    · rw [hstart]
    · unfold prodMem
      rw [hmem q rhs]
      have hpairs_iff : (∃ pr ∈ prodPairs a init,
          trim pr.1 = q ∧ trim pr.2 = rhs) ↔ (q, rhs) ∈ prodPairs a init := by
        constructor
        · rintro ⟨pr, hpr, e1, e2⟩
          obtain ⟨hc1, hc2⟩ := hclean pr hpr
          rw [hc1.trim_id] at e1
          rw [hc2.trim_id] at e2
          obtain ⟨p1, p2⟩ := pr
          simp only at e1 e2
          rw [← e1, ← e2]
          exact hpr
        · intro hpr
          obtain ⟨hc1, hc2⟩ := hclean (q, rhs) hpr
          exact ⟨(q, rhs), hpr, hc1.trim_id, hc2.trim_id⟩
      rw [hpairs_iff, mem_prodPairs a init q rhs]
      have hprodnil : ({ RegularGrammar.setTerminals
          (RegularGrammar.setNonTerminals (mkGrammar (S "GR_" ++ a.name)) a.states)
          a.alphabet with startSymbol := some init } : RegularGrammar).productions
            = ([] : List (Str × List Str)) := rfl
      rw [hprodnil]
      have hnp : ¬ pairMem ([] : List (Str × List Str)) q rhs := by
        rintro ⟨l, hl, _⟩
        simp [mget] at hl
      exact or_iff_left hnp

/-- Witness for the amended C2 theorem at the automaton `exA`. -/
theorem toRegularGrammar_correct_witness :
    ∃ g, FiniteAutomaton.toRegularGrammar exA = .ok g ∧
      (∀ x, x ∈ g.nonTerminals ↔ x ∈ exA.states) ∧
      (∀ x, x ∈ g.terminals ↔ x ∈ exA.alphabet) ∧
      g.startSymbol = some (S "S") ∧
      (∀ q rhs, prodMem g q rhs ↔
        ((∃ s p2, TransMem exA q s p2 ∧ rhs = s ++ p2) ∨
         (∃ s p2, TransMem exA q s p2 ∧ p2 ∈ exA.finalStates ∧ rhs = s) ∨
         (q = S "S" ∧ S "S" ∈ exA.finalStates ∧ rhs = ['ε']))) :=
  toRegularGrammar_correct exA (S "S") (by decide) (by decide) (by decide)
    (by decide) (by decide)

/-- C1: the DFA → RG → DFA round trip does not preserve the language
even for the complete, valid single-character DFA `exA` (one state `S`,
initial and final, self loop on `a`): the shortened production `S->a`
makes `toFiniteAutomaton` overwrite the transition `(S, a) -> S` with
`(S, a) -> qf`, so the round-tripped automaton rejects `aa` (length 2
≤ 5) although `exA` accepts it. -/
theorem roundTrip_language_mismatch :
    (FiniteAutomaton.validate exA).isValid = true ∧
    FiniteAutomaton.missingTransitions exA = 0 ∧
    (FiniteAutomaton.recognizeWord exA (S "aa")).1.accepted = true ∧
    (match FiniteAutomaton.toRegularGrammar exA with
      | .ok g => (RegularGrammar.toFiniteAutomaton g).toOption.map
          (fun b => (FiniteAutomaton.recognizeWord b (S "aa")).1.accepted)
      | .error _ => none) = some false ∧
    (S "aa").length ≤ 5 := by decide
